import Mathlib

/-!
Verification development for the qimg framebuffer image viewer
(src/qimg.c).  The data model and operations below are shallow
embeddings of the C source: pure C functions become Lean functions on
ℤ/ℕ/ℚ, byte buffers become functions ℕ → ℕ, and the 32-bit `float`
(resp. 64-bit `double`) arithmetic used by `qimg_get_scaled_dims`
(resp. `qimg_get_millis`) is modelled exactly by rounding rationals to
a 24-bit (resp. 53-bit) significand with IEEE round-to-nearest,
ties-to-even.  All values that occur in the claims stay inside the
normalized, non-overflowing range of the corresponding formats, where
this model agrees with IEEE 754 arithmetic.
-/

/-- Round a rational to the nearest integer, ties to even: the rounding
applied to the infinitely precise significand by IEEE 754
round-to-nearest binary arithmetic. -/
def rhe (x : ℚ) : ℤ :=
  if x - ⌊x⌋ < 1/2 then ⌊x⌋
  else if (1:ℚ)/2 < x - ⌊x⌋ then ⌊x⌋ + 1
  else if ⌊x⌋ % 2 = 0 then ⌊x⌋ else ⌊x⌋ + 1

/-- Fuel-driven binary logarithm on ℕ (largest e with 2^e ≤ n, for 1 ≤ n ≤ fuel). -/
def natLog2F : ℕ → ℕ → ℕ
  | 0, _ => 0
  | fuel + 1, n => if n < 2 then 0 else natLog2F fuel (n / 2) + 1

/-- Binary logarithm on ℕ: largest e with 2^e ≤ n (0 for n = 0). -/
def natLog2 (n : ℕ) : ℕ := natLog2F n n

/-- Binade exponent of a positive rational: the e with 2^e ≤ q < 2^(e+1). -/
def ratExp (q : ℚ) : ℤ :=
  if 1 ≤ q then (natLog2 ⌊q⌋.toNat : ℤ)
  else
    (if (2:ℚ) ^ (-(natLog2 ⌊q⁻¹⌋.toNat : ℤ)) ≤ q then -(natLog2 ⌊q⁻¹⌋.toNat : ℤ)
     else -(natLog2 ⌊q⁻¹⌋.toNat : ℤ) - 1)

/-- Round a rational to a binary floating-point value with a `p`-bit
significand (round to nearest, ties to even).  `p = 24` models C
`float`, `p = 53` models C `double`, on the normalized range. -/
def roundFP (p : ℕ) (q : ℚ) : ℚ :=
  if q = 0 then 0
  else if 0 < q then
    (rhe (q * 2 ^ ((p:ℤ) - 1 - ratExp q)) : ℚ) * 2 ^ (ratExp q - ((p:ℤ) - 1))
  else
    -((rhe (-q * 2 ^ ((p:ℤ) - 1 - ratExp (-q))) : ℚ) * 2 ^ (ratExp (-q) - ((p:ℤ) - 1)))

/-- C truncation toward zero of a real value to an integer (the
`(int)`/`(uint32_t)` cast applied to a float/double). -/
def truncZ (q : ℚ) : ℤ := if 0 ≤ q then ⌊q⌋ else -⌊-q⌋

/-- Executable round-to-nearest-even of the ratio u / v (v > 0) on ℕ,
kernel-computable twin of `rhe`. -/
def rheN (u v : ℕ) : ℕ :=
  if 2 * (u % v) < v then u / v
  else if v < 2 * (u % v) then u / v + 1
  else if (u / v) % 2 = 0 then u / v else u / v + 1

/-- Executable binade exponent of the ratio a / d (a, d > 0),
kernel-computable twin of `ratExp`. -/
def ratExpN (a d : ℕ) : ℤ :=
  if d ≤ a then (natLog2 (a / d) : ℤ)
  else
    (if d ≤ a * 2 ^ natLog2 (d / a) then -(natLog2 (d / a) : ℤ)
     else -(natLog2 (d / a) : ℤ) - 1)

/-- Rounded `p`-bit significand of the ratio a / d (a, d > 0),
kernel-computable. -/
def rndFmag (p : ℕ) (a d : ℕ) : ℕ :=
  if 0 ≤ (p:ℤ) - 1 - ratExpN a d then
    rheN (a * 2 ^ ((p:ℤ) - 1 - ratExpN a d).toNat) d
  else rheN a (d * 2 ^ (-((p:ℤ) - 1 - ratExpN a d)).toNat)

/-- Executable floating-point rounding of the ratio n / d (d > 0) to a
`p`-bit significand, as an exact pair (numerator, positive denominator).
Kernel-computable implementation of `roundFP`; the agreement is proved
in `rndF_val`. -/
def rndF (p : ℕ) (n : ℤ) (d : ℕ) : ℤ × ℕ :=
  if n = 0 then (0, 1)
  else
    (if 0 ≤ ratExpN n.natAbs d - ((p:ℤ) - 1) then
      (n.sign * rndFmag p n.natAbs d * 2 ^ (ratExpN n.natAbs d - ((p:ℤ) - 1)).toNat, 1)
     else (n.sign * rndFmag p n.natAbs d, 2 ^ (-(ratExpN n.natAbs d - ((p:ℤ) - 1))).toNat))

/-- Exact rational value of a (numerator, denominator) pair. -/
def fval (x : ℤ × ℕ) : ℚ := (x.1 : ℚ) / (x.2 : ℚ)

/-- C conversion `(float) n` of an `int`, as an exact value pair. -/
def i2f32R (n : ℤ) : ℤ × ℕ := rndF 24 n 1

/-- C single-precision division of two binary32 values. -/
def f32divR (a b : ℤ × ℕ) : ℤ × ℕ :=
  rndF 24 (a.1 * b.2 * b.1.sign) (a.2 * b.1.natAbs)

/-- C single-precision multiplication of two binary32 values. -/
def f32mulR (a b : ℤ × ℕ) : ℤ × ℕ := rndF 24 (a.1 * b.1) (a.2 * b.2)

/-- C `float` comparison `a > b` on exact value pairs. -/
def fgtR (a b : ℤ × ℕ) : Prop := b.1 * (a.2:ℤ) < a.1 * (b.2:ℤ)

instance (a b : ℤ × ℕ) : Decidable (fgtR a b) := by unfold fgtR; infer_instance

/-- C truncation-toward-zero of a float value to an integer (the
implicit float→int conversion; `Int.div` is C integer division). -/
def truncZR (x : ℤ × ℕ) : ℤ := Int.tdiv x.1 x.2

/-- Resolution / coordinate pair: `qimg_point` in src/qimg.c (two C ints). -/
structure qimg_point where
  x : ℤ
  y : ℤ
deriving DecidableEq

/-- Image scale styles: `qimg_scale` in src/qimg.c. -/
inductive qimg_scale where
  | SCALE_DISABLED
  | SCALE_FIT
  | SCALE_STRETCH
  | SCALE_FILL
deriving DecidableEq

open qimg_scale

/-- Embedding of `qimg_get_scaled_dims` (src/qimg.c, lines 848-875):
computes the target dimensions for viewing a source image of size `src`
on a viewport `vp` under scale style `sc`.  The C code computes
`px = (float) vp.x / (float) src.x`, `py = (float) vp.y / (float) src.y`
in single precision, picks `p = (px > py) ? px : py` (FILL) or
`(px > py) ? py : px` (FIT), and assigns `src.x * p` and `src.y * p` to
the `int` fields of the result (truncation toward zero). -/
def qimg_get_scaled_dims (src vp : qimg_point) (sc : qimg_scale) : qimg_point :=
  let px := f32divR (i2f32R vp.x) (i2f32R src.x)
  let py := f32divR (i2f32R vp.y) (i2f32R src.y)
  match sc with
  | SCALE_DISABLED => src
  | SCALE_STRETCH => vp
  | SCALE_FILL =>
      ⟨truncZR (f32mulR (i2f32R src.x) (if fgtR px py then px else py)),
       truncZR (f32mulR (i2f32R src.y) (if fgtR px py then px else py))⟩
  | SCALE_FIT =>
      ⟨truncZR (f32mulR (i2f32R src.x) (if fgtR px py then py else px)),
       truncZR (f32mulR (i2f32R src.y) (if fgtR px py then py else px))⟩

/-- RGBA color: `qimg_color` in src/qimg.c (four uint8 channels, held as
byte values). -/
structure qimg_color where
  r : ℕ
  g : ℕ
  b : ℕ
  a : ℕ
deriving DecidableEq

/-- Loaded image: `qimg_image` in src/qimg.c.  `pixels` is the decoded
byte buffer (stb_image layout: `c` bytes per pixel, row-major),
modelled as a total function from byte index to byte value. -/
structure qimg_image where
  res : qimg_point
  c : ℕ
  pixels : ℕ → ℕ

/-- Image position: `qimg_position` in src/qimg.c. -/
inductive qimg_position where
  | POS_CENTERED
  | POS_TOP_LEFT
  | POS_TOP_RIGHT
  | POS_BOTTOM_RIGHT
  | POS_BOTTOM_LEFT
deriving DecidableEq

/-- Framebuffer background color: `qimg_bg` in src/qimg.c. -/
inductive qimg_bg where
  | BG_BLACK
  | BG_WHITE
  | BG_RED
  | BG_GREEN
  | BG_BLUE
  | BG_DISABLED
deriving DecidableEq

open qimg_position qimg_bg

/-- Embedding of `qimg_get_pixel` (src/qimg.c, lines 726-743): color of
the pixel at (x, y).  The byte offset into the buffer is
`(y * res.x + x) * c`; for fewer than 3 channels r = g = b = first byte
and alpha is the second byte when c >= 2, else 0xff; for 3 or more
channels r, g, b are the first three bytes and alpha the fourth when
c >= 4, else 0xff.  (The C assert on the coordinates is a caller
contract; callers below only use in-bounds coordinates.) -/
def qimg_get_pixel (im : qimg_image) (x y : ℤ) : qimg_color :=
  if im.c < 3 then
    { r := im.pixels ((y * im.res.x + x) * im.c).toNat
      g := im.pixels ((y * im.res.x + x) * im.c).toNat
      b := im.pixels ((y * im.res.x + x) * im.c).toNat
      a := if 2 ≤ im.c then im.pixels (((y * im.res.x + x) * im.c).toNat + 1)
           else 255 }
  else
    { r := im.pixels ((y * im.res.x + x) * im.c).toNat
      g := im.pixels (((y * im.res.x + x) * im.c).toNat + 1)
      b := im.pixels (((y * im.res.x + x) * im.c).toNat + 2)
      a := if 4 ≤ im.c then im.pixels (((y * im.res.x + x) * im.c).toNat + 3)
           else 255 }

/-- Embedding of `qimg_get_bg_color` (src/qimg.c, lines 745-768); the C
default branch (reached for BG_DISABLED) yields opaque black. -/
def qimg_get_bg_color (bg : qimg_bg) : qimg_color :=
  match bg with
  | BG_BLACK => ⟨0, 0, 0, 255⟩
  | BG_WHITE => ⟨255, 255, 255, 255⟩
  | BG_RED => ⟨255, 0, 0, 255⟩
  | BG_GREEN => ⟨0, 255, 0, 255⟩
  | BG_BLUE => ⟨0, 0, 255, 255⟩
  | BG_DISABLED => ⟨0, 0, 0, 255⟩

/-- Embedding of `qimg_translate_coords` (src/qimg.c, lines 635-662):
translates framebuffer coordinates to image coordinates for a given
positioning.  Only the two resolutions are read from the image and
framebuffer structs; `Int.tdiv` is the C `/` on ints (truncation). -/
def qimg_translate_coords (pos : qimg_position) (im_res fb_res : qimg_point)
    (x y : ℤ) : qimg_point :=
  match pos with
  | POS_TOP_LEFT => ⟨x, y⟩
  | POS_TOP_RIGHT => ⟨x - (fb_res.x - im_res.x), y⟩
  | POS_BOTTOM_RIGHT => ⟨x - (fb_res.x - im_res.x), y - (fb_res.y - im_res.y)⟩
  | POS_BOTTOM_LEFT => ⟨x, y - (fb_res.y - im_res.y)⟩
  | POS_CENTERED =>
      ⟨x - (Int.tdiv fb_res.x 2 - Int.tdiv im_res.x 2),
       y - (Int.tdiv fb_res.y 2 - Int.tdiv im_res.y 2)⟩

/-- Byte offset of the 4-byte pixel slot for framebuffer coordinate
(x, y): `offs = (y_ * fb->res.x + x_) * 4` in `qimg_draw_image`
(coordinates from the drawing loop are nonnegative and bounded by the
resolution). -/
def offsOf (fb_res : qimg_point) (x y : ℕ) : ℕ := (y * fb_res.x.toNat + x) * 4

/-- The four byte stores `buf[offs+0..3] = c.b, c.g, c.r, c.a` of
`qimg_draw_image` at pixel slot `o` (BGRA order). -/
def writeBytes (buf : ℕ → ℕ) (o : ℕ) (c : qimg_color) : ℕ → ℕ :=
  fun i =>
    if i = o then c.b
    else if i = o + 1 then c.g
    else if i = o + 2 then c.r
    else if i = o + 3 then c.a
    else buf i

/-- One iteration of the drawing loop of `qimg_draw_image`
(src/qimg.c, lines 697-719) for the framebuffer coordinate (x, y):
translate to image coordinates; outside the image the background is
either left untouched (BG_DISABLED) or filled with the background
color; inside, the image pixel is sampled; the chosen color is written
to the 4-byte slot in B, G, R, A order. -/
def qimg_draw_pixel (im : qimg_image) (fb_res : qimg_point) (pos : qimg_position)
    (bg : qimg_bg) (x y : ℕ) (buf : ℕ → ℕ) : ℕ → ℕ :=
  if im.res.x ≤ (qimg_translate_coords pos im.res fb_res (x:ℤ) (y:ℤ)).x ∨
     im.res.y ≤ (qimg_translate_coords pos im.res fb_res (x:ℤ) (y:ℤ)).y ∨
     (qimg_translate_coords pos im.res fb_res (x:ℤ) (y:ℤ)).x < 0 ∨
     (qimg_translate_coords pos im.res fb_res (x:ℤ) (y:ℤ)).y < 0 then
    (if bg = BG_DISABLED then buf
     else writeBytes buf (offsOf fb_res x y) (qimg_get_bg_color bg))
  else
    writeBytes buf (offsOf fb_res x y)
      (qimg_get_pixel im (qimg_translate_coords pos im.res fb_res (x:ℤ) (y:ℤ)).x
        (qimg_translate_coords pos im.res fb_res (x:ℤ) (y:ℤ)).y)

/-- Embedding of the compositing part of `qimg_draw_image`
(src/qimg.c, lines 690-724): starting from a copy `buf0` of the
framebuffer contents, the doubly nested loop (x outer, y inner) writes
every pixel slot.  The subsequent presentation of the buffer
(`qimg_draw_buffer`) is modelled in the playback-loop section. -/
def qimg_draw_image_buf (im : qimg_image) (fb_res : qimg_point)
    (pos : qimg_position) (bg : qimg_bg) (buf0 : ℕ → ℕ) : ℕ → ℕ :=
  (List.range fb_res.x.toNat).foldl
    (fun b x => (List.range fb_res.y.toNat).foldl
      (fun b2 y => qimg_draw_pixel im fb_res pos bg x y b2) b) buf0

/-- Test image for the C1 witness: 2x1 pixels, 3 channels,
bytes 10, 11, 12, 13, 14, 15. -/
def im1w : qimg_image := ⟨⟨2, 1⟩, 3, fun i => i + 10⟩

/-- Test image for the C4 witness: a 1x1 image on a 2x1 surface, so the
coordinate (1, 0) falls outside the image footprint. -/
def im4w : qimg_image := ⟨⟨1, 1⟩, 1, fun _ => 9⟩

/-- Background buffer for the C4 witness. -/
def buf4w : ℕ → ℕ := fun i => i + 50

/-- Concrete 1x1 RGBA image for the C5 counterexample: pixel bytes
10, 20, 30, 40 (stb order R, G, B, A). -/
def im5cex : qimg_image :=
  ⟨⟨1, 1⟩, 4, fun i => if i = 0 then 10 else if i = 1 then 20
    else if i = 2 then 30 else 40⟩

/-- Test image for the C5 witness: 2x2 pixels, 4 channels, byte i
holds 3i. -/
def im5w : qimg_image := ⟨⟨2, 2⟩, 4, fun i => i * 3⟩

/-! ## ImageStream: `qimg_collection`, `qimg_dyn_collection`,
`qimg_load_collection`, `qimg_init_dyn_collection`, `qimg_get_next`

The batched loader works over a list of input paths.  The embedding
tracks, for each slot of the fixed-size working window, the index of
the source the slot's image was loaded from (`some s`), or `none` for
a slot holding no live image (never initialized, or pointing at memory
released by `qimg_free_collection`).  `qimg_get_next` returns the
updated state together with the source index of the returned image
(`none` models a read past the live window: a dangling pointer in C). -/
/-- Constant `MAX_BUFFER_SIZE` in src/qimg.c (working-window capacity). -/
def MAX_BUFFER_SIZE : ℤ := 5

/-- Struct `qimg_collection` in src/qimg.c: current window index, number of
images, and the image slots (source index of the live image per slot). -/
structure qimg_collection where
  idx : ℤ
  size : ℤ
  images : ℤ → Option ℤ

/-- Struct `qimg_dyn_collection` in src/qimg.c: total input count, global
cursor, number consumed since the last load, current window. -/
structure qimg_dyn_collection where
  size : ℤ
  idx : ℤ
  n_consumed : ℤ
  col : qimg_collection

/-- Embedding of `qimg_load_collection` in src/qimg.c: loads `images[i] =
load(paths[offset + i])` for `0 ≤ i < n_inputs`, sets `size = n_inputs`
and `idx = 0`.  Slots outside `[0, n_inputs)` are uninitialized. -/
def qimg_load_collection (n_inputs offset : ℤ) : qimg_collection :=
  { idx := 0, size := n_inputs,
    images := fun i => if 0 ≤ i ∧ i < n_inputs then some (offset + i) else none }

/-- Embedding of `qimg_init_dyn_collection` in src/qimg.c: eagerly loads the first
batch of `min n_inputs MAX_BUFFER_SIZE` images. -/
def qimg_init_dyn_collection (n_inputs : ℤ) : qimg_dyn_collection :=
  let n := if n_inputs < MAX_BUFFER_SIZE then n_inputs else MAX_BUFFER_SIZE
  { size := n_inputs, n_consumed := 0, idx := 0,
    col := qimg_load_collection n 0 }

/-- Embedding of `qimg_get_next` in src/qimg.c: refill when `n_consumed == col.size`
(freeing the old window), advance `idx`/`n_consumed`, wrap `idx` at
`size` setting `n_consumed = size` to trigger reloading, and return
`col.images[col.idx++]`. -/
def qimg_get_next (d0 : qimg_dyn_collection) : qimg_dyn_collection × Option ℤ :=
  let d1 :=
    if d0.n_consumed = d0.col.size then
      let left := d0.size - d0.idx
      let n := if left < MAX_BUFFER_SIZE then left else MAX_BUFFER_SIZE
      { d0 with col := qimg_load_collection n d0.idx, n_consumed := 0 }
    else d0
  let d2 := { d1 with idx := d1.idx + 1, n_consumed := d1.n_consumed + 1 }
  let d3 :=
    if d2.idx = d2.size then { d2 with idx := 0, n_consumed := d2.size }
    else d2
  let ret := d3.col.images d3.col.idx
  ({ d3 with col := { d3.col with idx := d3.col.idx + 1 } }, ret)

/-- Iterated `qimg_get_next`: final state and the list of returned
source indices, in call order. -/
def qimg_get_next_trace : ℕ → qimg_dyn_collection → qimg_dyn_collection × List (Option ℤ)
  | 0, d => (d, [])
  | k + 1, d =>
      let s := qimg_get_next d
      let t := qimg_get_next_trace k s.1
      (t.1, s.2 :: t.2)

/-! ## PlaybackLoop: `qimg_resize_image` and `qimg_draw_images`

The playback loop orchestrates the stream, the scaler and the
compositor.  The embedding records, for each iteration of the `while`
loop, the `qimg_draw_image` call it performs: which source the drawn
image came from, the image's resolution at that moment, and the
(ignored) result of `qimg_resize_image`.  The external resampler's
output bytes are abstracted by a parameter `R`, and the decoded image
of each source by a parameter `decode`. -/
/-- Modelled from the spec: the external stb resampler behind
`qimg_resize_image` "fails with ScaleError::ResamplingFailed if the
underlying resampler cannot produce output (e.g., degenerate zero
dimension)"; success is determined by the target dimensions. -/
def stbir_resize_uint8 (dest : qimg_point) : Bool :=
  decide (0 < dest.x ∧ 0 < dest.y)

/-- Embedding of `qimg_resize_image` in src/qimg.c (lines 831-846): when the
resampler succeeds, the image's pixel buffer is replaced by the
resampler output (`out`, external content) and its resolution becomes
`dest_res`, returning `true`; when it fails, the image is left
unchanged and `false` is returned. -/
def qimg_resize_image (out : ℕ → ℕ) (im : qimg_image) (dest_res : qimg_point) :
    qimg_image × Bool :=
  if stbir_resize_uint8 dest_res then
    ({ res := dest_res, c := im.c, pixels := out }, true)
  else (im, false)

/-- One `qimg_draw_image` call performed by the playback loop: source
index of the drawn image (`none` models a fetch past the live window),
the image's resolution at the time of the draw, and the ignored
`qimg_resize_image` result (`none` when scaling is disabled, so no
resize is attempted). -/
structure qimg_draw_event where
  src : Option ℤ
  res : Option qimg_point
  resized : Option Bool
deriving DecidableEq

/-- The body of the `while` loop of `qimg_draw_images` (src/qimg.c,
lines 616-632): fetch the next image with `qimg_get_next`, resize it to
`qimg_get_scaled_dims` unless scaling is disabled (the boolean returned
by `qimg_resize_image` is not examined), then draw it. -/
def qimg_draw_images_body (R : qimg_image → qimg_point → ℕ → ℕ)
    (decode : ℤ → qimg_image) (sc : qimg_scale) (fb_res : qimg_point)
    (dcol : qimg_dyn_collection) : qimg_dyn_collection × qimg_draw_event :=
  let s := qimg_get_next dcol
  match s.2 with
  | none => (s.1, ⟨none, none, none⟩)
  | some k =>
      let im := decode k
      if sc ≠ SCALE_DISABLED then
        let dest := qimg_get_scaled_dims im.res fb_res sc
        let r := qimg_resize_image (R im dest) im dest
        (s.1, ⟨some k, some r.1.res, some r.2⟩)
      else
        (s.1, ⟨some k, some im.res, none⟩)

/-- Embedding of `qimg_draw_images` in src/qimg.c (lines 616-632), unrolled for
`fuel` iterations of `while (i < dcol->size || (loop && dcol->size >
1))`.  Each iteration draws one image (an event in the returned list);
after drawing, the loop exits if the cancellation flag `run` is
observed cleared (`runFlag k` is the value `run` holds at the `k`-th
`if (!run)` check). -/
def qimg_draw_images (R : qimg_image → qimg_point → ℕ → ℕ)
    (decode : ℤ → qimg_image) (sc : qimg_scale) (fb_res : qimg_point)
    (loop : Bool) (runFlag : ℕ → Bool) :
    ℕ → ℤ → ℕ → qimg_dyn_collection → List qimg_draw_event
  | 0, _, _, _ => []
  | fuel + 1, i, k, dcol =>
      if i < dcol.size ∨ (loop ∧ 1 < dcol.size) then
        let b := qimg_draw_images_body R decode sc fb_res dcol
        b.2 :: (if runFlag k then
                  qimg_draw_images R decode sc fb_res loop runFlag fuel
                    (i + 1) (k + 1) b.1
                else [])
      else []

/-! ## Clock: `qimg_get_millis`

`qimg_get_millis` in src/qimg.c computes
`(uint32_t)((double)(clock() - begin_clk) / CLOCKS_PER_SEC) * 1000`:
the elapsed tick count is converted to `double`, divided by
`CLOCKS_PER_SEC` in double precision, truncated to `uint32_t`
(toward zero; defined for quotients below `2^32`, which all theorems
below respect), and then multiplied by 1000 in `uint32_t` arithmetic,
which wraps modulo `2^32`.  The embedding takes the elapsed ticks and
the platform's `CLOCKS_PER_SEC` as parameters. -/
/-- C conversion of an integer tick count to `double` (binary64). -/
def i2f64R (n : ℤ) : ℤ × ℕ := rndF 53 n 1

/-- C double-precision division of two binary64 values. -/
def f64divR (a b : ℤ × ℕ) : ℤ × ℕ :=
  rndF 53 (a.1 * b.2 * b.1.sign) (a.2 * b.1.natAbs)

/-- Embedding of `qimg_get_millis` in src/qimg.c (lines 564-566) on elapsed ticks
`ticks` with clock resolution `cps` ticks per second. -/
def qimg_get_millis (cps ticks : ℕ) : ℕ :=
  ((truncZR (f64divR (i2f64R (ticks:ℤ)) (i2f64R (cps:ℤ)))).toNat * 1000) % 2 ^ 32

theorem rhe_dist (x : ℚ) : |(rhe x : ℚ) - x| ≤ 1/2 := by
  unfold rhe
  have h0 : (⌊x⌋ : ℚ) ≤ x := Int.floor_le x
  have h1 : x < ⌊x⌋ + 1 := Int.lt_floor_add_one x
  split_ifs with a b c <;> rw [abs_le] <;> push_cast <;> constructor <;> linarith

theorem rhe_intCast (n : ℤ) : rhe (n : ℚ) = n := by
  unfold rhe
  simp

theorem natLog2F_spec : ∀ fuel n, 1 ≤ n → n ≤ fuel →
    2 ^ natLog2F fuel n ≤ n ∧ n < 2 ^ (natLog2F fuel n + 1) := by
  intro fuel
  induction fuel with
  | zero => intro n h1 h2; omega
  | succ f ih =>
    intro n h1 h2
    by_cases h : n < 2
    · simp only [natLog2F, if_pos h]
      omega
    · have hrec := ih (n / 2) (by omega) (by omega)
      simp only [natLog2F, if_neg h]
      obtain ⟨l, u⟩ := hrec
      constructor
      · have : 2 ^ (natLog2F f (n / 2) + 1) = 2 * 2 ^ natLog2F f (n / 2) := by ring
        omega
      · have : 2 ^ (natLog2F f (n / 2) + 1 + 1) = 2 * 2 ^ (natLog2F f (n / 2) + 1) := by ring
        omega

theorem natLog2_spec (n : ℕ) (h : 1 ≤ n) :
    2 ^ natLog2 n ≤ n ∧ n < 2 ^ (natLog2 n + 1) :=
  natLog2F_spec n n h le_rfl

theorem two_zpow_pos (k : ℤ) : (0:ℚ) < 2 ^ k := zpow_pos (by norm_num) k

theorem two_zpow_mono {a b : ℤ} (h : a ≤ b) : (2:ℚ) ^ a ≤ (2:ℚ) ^ b := by
  have h1 : (2:ℚ) ^ b = 2 ^ a * 2 ^ (b - a) := by
    rw [← zpow_add₀ (two_ne_zero : (2:ℚ) ≠ 0)]; congr 1; ring
  have h2 : b - a = ((b - a).toNat : ℤ) := by omega
  have h3 : (1:ℚ) ≤ 2 ^ (b - a) := by
    rw [h2, zpow_natCast]
    exact one_le_pow₀ (by norm_num)
  nlinarith [two_zpow_pos a]

theorem le_zpow_neg_of_zpow_le_inv {q : ℚ} (hq : 0 < q) {k : ℤ}
    (h : (2:ℚ) ^ k ≤ q⁻¹) : q ≤ 2 ^ (-k) := by
  have h1 : q * (2:ℚ) ^ k ≤ q * q⁻¹ := mul_le_mul_of_nonneg_left h hq.le
  rw [mul_inv_cancel₀ hq.ne'] at h1
  have h2 : q * (2:ℚ) ^ k * 2 ^ (-k) ≤ 1 * 2 ^ (-k) :=
    mul_le_mul_of_nonneg_right h1 (two_zpow_pos _).le
  calc q = q * (2:ℚ) ^ k * 2 ^ (-k) := by
        rw [mul_assoc, ← zpow_add₀ (two_ne_zero : (2:ℚ) ≠ 0), add_neg_cancel,
          zpow_zero, mul_one]
    _ ≤ 1 * 2 ^ (-k) := h2
    _ = 2 ^ (-k) := one_mul _

theorem zpow_neg_lt_of_inv_lt {q : ℚ} (hq : 0 < q) {k : ℤ}
    (h : q⁻¹ < (2:ℚ) ^ k) : 2 ^ (-k) < q := by
  have h1 : q * q⁻¹ < q * 2 ^ k := mul_lt_mul_of_pos_left h hq
  rw [mul_inv_cancel₀ hq.ne'] at h1
  have h2 : 1 * 2 ^ (-k) < q * 2 ^ k * 2 ^ (-k) :=
    mul_lt_mul_of_pos_right h1 (two_zpow_pos _)
  calc (2:ℚ) ^ (-k) = 1 * 2 ^ (-k) := (one_mul _).symm
    _ < q * 2 ^ k * 2 ^ (-k) := h2
    _ = q := by
        rw [mul_assoc, ← zpow_add₀ (two_ne_zero : (2:ℚ) ≠ 0), add_neg_cancel,
          zpow_zero, mul_one]

theorem ratExp_spec (q : ℚ) (hq : 0 < q) :
    (2:ℚ) ^ ratExp q ≤ q ∧ q < 2 ^ (ratExp q + 1) := by
  unfold ratExp
  by_cases h1 : 1 ≤ q
  · rw [if_pos h1]
    have hfl : 1 ≤ ⌊q⌋ := Int.le_floor.mpr (by exact_mod_cast h1)
    obtain ⟨l, u⟩ := natLog2_spec ⌊q⌋.toNat (by omega)
    have hcast : ((⌊q⌋.toNat : ℤ) : ℚ) = (⌊q⌋ : ℚ) := by
      rw [Int.toNat_of_nonneg (by omega)]
    constructor
    · rw [zpow_natCast]
      calc (2:ℚ) ^ natLog2 ⌊q⌋.toNat ≤ ((⌊q⌋.toNat : ℤ) : ℚ) := by exact_mod_cast l
        _ = (⌊q⌋ : ℚ) := hcast
        _ ≤ q := Int.floor_le q
    · rw [show (natLog2 ⌊q⌋.toNat : ℤ) + 1 = ((natLog2 ⌊q⌋.toNat + 1 : ℕ) : ℤ) by
        push_cast; ring, zpow_natCast]
      have h3 : ((⌊q⌋.toNat + 1 : ℕ) : ℚ) ≤ (2:ℚ) ^ (natLog2 ⌊q⌋.toNat + 1) := by
        exact_mod_cast Nat.succ_le_of_lt u
      calc q < (⌊q⌋ : ℚ) + 1 := Int.lt_floor_add_one q
        _ = ((⌊q⌋.toNat + 1 : ℕ) : ℚ) := by rw [← hcast]; push_cast; ring
        _ ≤ _ := h3
  · rw [if_neg h1]
    have hq2 : q < 1 := not_le.mp h1
    have hqi : 0 < q⁻¹ := inv_pos.mpr hq
    have hinv : 1 < q⁻¹ := by
      have h' := mul_lt_mul_of_pos_right hq2 hqi
      rwa [mul_inv_cancel₀ hq.ne', one_mul] at h'
    have hfl : 1 ≤ ⌊q⁻¹⌋ := Int.le_floor.mpr (by exact_mod_cast hinv.le)
    obtain ⟨l, u⟩ := natLog2_spec ⌊q⁻¹⌋.toNat (by omega)
    set f := natLog2 ⌊q⁻¹⌋.toNat with hf
    have hcast : ((⌊q⁻¹⌋.toNat : ℤ) : ℚ) = (⌊q⁻¹⌋ : ℚ) := by
      rw [Int.toNat_of_nonneg (by omega)]
    have hl : (2:ℚ) ^ (f:ℤ) ≤ q⁻¹ := by
      rw [zpow_natCast]
      calc (2:ℚ) ^ f ≤ ((⌊q⁻¹⌋.toNat : ℤ) : ℚ) := by exact_mod_cast l
        _ = (⌊q⁻¹⌋ : ℚ) := hcast
        _ ≤ q⁻¹ := Int.floor_le _
    have hu : q⁻¹ < (2:ℚ) ^ ((f:ℤ) + 1) := by
      rw [show ((f:ℤ) + 1) = ((f + 1 : ℕ) : ℤ) by push_cast; ring, zpow_natCast]
      calc q⁻¹ < (⌊q⁻¹⌋ : ℚ) + 1 := Int.lt_floor_add_one _
        _ = ((⌊q⁻¹⌋.toNat + 1 : ℕ) : ℚ) := by rw [← hcast]; push_cast; ring
        _ ≤ ((2 ^ (f + 1) : ℕ) : ℚ) := by exact_mod_cast Nat.succ_le_of_lt u
        _ = (2:ℚ) ^ (f + 1) := by push_cast; ring
    have hA : q ≤ (2:ℚ) ^ (-(f:ℤ)) := le_zpow_neg_of_zpow_le_inv hq hl
    have hB : (2:ℚ) ^ (-(f:ℤ) - 1) < q := by
      have h' := zpow_neg_lt_of_inv_lt hq hu
      rwa [show -((f:ℤ) + 1) = -(f:ℤ) - 1 by ring] at h'
    split_ifs with hc
    · refine ⟨hc, ?_⟩
      have hp : (0:ℚ) < 2 ^ (-(f:ℤ)) := two_zpow_pos _
      have he : (2:ℚ) ^ (-(f:ℤ) + 1) = 2 ^ (-(f:ℤ)) * 2 := by
        rw [zpow_add_one₀ (two_ne_zero : (2:ℚ) ≠ 0)]
      linarith
    · refine ⟨hB.le, ?_⟩
      rw [show (-(f:ℤ) - 1) + 1 = -(f:ℤ) by ring]
      exact not_le.mp hc

theorem roundFP_err (p : ℕ) (q : ℚ) (hq : 0 ≤ q) :
    |roundFP p q - q| ≤ q / 2 ^ p := by
  rcases eq_or_lt_of_le hq with h0 | h0
  · simp [roundFP, ← h0]
  · unfold roundFP
    rw [if_neg h0.ne', if_pos h0]
    obtain ⟨hl, hu⟩ := ratExp_spec q h0
    set e := ratExp q with he
    set y := q * 2 ^ ((p:ℤ) - 1 - e) with hy
    have hid : y * 2 ^ (e - ((p:ℤ) - 1)) = q := by
      rw [hy, mul_assoc, ← zpow_add₀ (two_ne_zero : (2:ℚ) ≠ 0),
        show (p:ℤ) - 1 - e + (e - ((p:ℤ) - 1)) = 0 by ring, zpow_zero, mul_one]
    have key : (rhe y : ℚ) * 2 ^ (e - ((p:ℤ) - 1)) - q
        = ((rhe y : ℚ) - y) * 2 ^ (e - ((p:ℤ) - 1)) := by
      rw [sub_mul, hid]
    rw [key, abs_mul, abs_of_pos (two_zpow_pos _)]
    have h2 : |(rhe y : ℚ) - y| * 2 ^ (e - ((p:ℤ) - 1))
        ≤ (1/2) * 2 ^ (e - ((p:ℤ) - 1)) :=
      mul_le_mul_of_nonneg_right (rhe_dist y) (two_zpow_pos _).le
    have h3 : (1/2 : ℚ) * 2 ^ (e - ((p:ℤ) - 1)) = 2 ^ (e - (p:ℤ)) := by
      rw [show e - ((p:ℤ) - 1) = (e - (p:ℤ)) + 1 by ring,
        zpow_add_one₀ (two_ne_zero : (2:ℚ) ≠ 0)]
      ring
    have h4 : (2:ℚ) ^ (e - (p:ℤ)) ≤ q / 2 ^ p := by
      have hpp : (0:ℚ) < 2 ^ (p:ℤ) := two_zpow_pos _
      calc (2:ℚ) ^ (e - (p:ℤ)) = 2 ^ e / 2 ^ (p:ℤ) := by
            rw [zpow_sub₀ (two_ne_zero : (2:ℚ) ≠ 0)]
        _ ≤ q / 2 ^ (p:ℤ) := by gcongr
        _ = q / 2 ^ p := by rw [zpow_natCast]
    linarith

theorem roundFP_nonneg (p : ℕ) (q : ℚ) (hq : 0 ≤ q) : 0 ≤ roundFP p q := by
  have h := roundFP_err p q hq
  rw [abs_le] at h
  have h2 : q / 2 ^ p ≤ q := by
    apply div_le_self hq
    exact one_le_pow₀ (by norm_num)
  linarith [h.1]

theorem roundFP_int (p : ℕ) (hp : 1 ≤ p) (n : ℤ) (h1 : 1 ≤ n) (h2 : n ≤ 2 ^ p) :
    roundFP p (n:ℚ) = n := by
  have hq : (0:ℚ) < n := by exact_mod_cast h1
  unfold roundFP
  rw [if_neg hq.ne', if_pos hq]
  obtain ⟨hl, hu⟩ := ratExp_spec (n:ℚ) hq
  set e := ratExp (n:ℚ) with he
  have hn2p : (n:ℚ) ≤ 2 ^ (p:ℤ) := by
    rw [zpow_natCast]; exact_mod_cast h2
  have heu : e ≤ (p:ℤ) := by
    by_contra hc
    push_neg at hc
    have hm : (2:ℚ) ^ ((p:ℤ) + 1) ≤ 2 ^ e := two_zpow_mono (by omega)
    have h2p1 : (2:ℚ) ^ ((p:ℤ) + 1) = 2 * 2 ^ (p:ℤ) := by
      rw [zpow_add_one₀ (two_ne_zero : (2:ℚ) ≠ 0)]; ring
    nlinarith [two_zpow_pos (p:ℤ)]
  by_cases hep : e = (p:ℤ)
  · have hn : (n:ℚ) = 2 ^ (p:ℤ) := le_antisymm hn2p (by rw [← hep]; exact hl)
    have hy : (n:ℚ) * 2 ^ ((p:ℤ) - 1 - e) = ((2 ^ (p - 1) : ℤ) : ℚ) := by
      rw [hn, hep, ← zpow_add₀ (two_ne_zero : (2:ℚ) ≠ 0),
        show (p:ℤ) + ((p:ℤ) - 1 - (p:ℤ)) = (p:ℤ) - 1 by ring,
        show (p:ℤ) - 1 = ((p - 1 : ℕ) : ℤ) by omega, zpow_natCast]
      push_cast
      ring
    rw [hy, rhe_intCast]
    have : ((2 ^ (p - 1) : ℤ) : ℚ) = 2 ^ ((p:ℤ) - 1) := by
      rw [show (p:ℤ) - 1 = ((p - 1 : ℕ) : ℤ) by omega, zpow_natCast]
      push_cast
      ring
    rw [this, ← zpow_add₀ (two_ne_zero : (2:ℚ) ≠ 0), hep,
      show (p:ℤ) - 1 + ((p:ℤ) - ((p:ℤ) - 1)) = (p:ℤ) by ring]
    exact hn.symm
  · have hep' : 0 ≤ (p:ℤ) - 1 - e := by omega
    have hk : (p:ℤ) - 1 - e = (((p:ℤ) - 1 - e).toNat : ℤ) := by omega
    have hy : (n:ℚ) * 2 ^ ((p:ℤ) - 1 - e)
        = ((n * 2 ^ ((p:ℤ) - 1 - e).toNat : ℤ) : ℚ) := by
      push_cast
      rw [← zpow_natCast (2:ℚ) ((p:ℤ) - 1 - e).toNat, ← hk]
    rw [hy, rhe_intCast]
    have hy2 : ((n * 2 ^ ((p:ℤ) - 1 - e).toNat : ℤ) : ℚ)
        = (n:ℚ) * 2 ^ ((p:ℤ) - 1 - e) := hy.symm
    rw [hy2, mul_assoc, ← zpow_add₀ (two_ne_zero : (2:ℚ) ≠ 0),
      show (p:ℤ) - 1 - e + (e - ((p:ℤ) - 1)) = 0 by ring, zpow_zero, mul_one]

theorem floor_natCast_div (u v : ℕ) (hv : 0 < v) :
    ⌊(u:ℚ) / (v:ℚ)⌋ = (u / v : ℕ) := by
  have hv' : (0:ℚ) < v := by exact_mod_cast hv
  rw [Int.floor_eq_iff]
  constructor
  · rw [Int.cast_natCast, le_div_iff hv']
    exact_mod_cast Nat.div_mul_le_self u v
  · have key : u < (u / v + 1) * v := by
      have h2 := Nat.mod_lt u hv
      calc u = v * (u / v) + u % v := (Nat.div_add_mod u v).symm
        _ < v * (u / v) + v := Nat.add_lt_add_left h2 _
        _ = (u / v + 1) * v := by ring
    rw [Int.cast_natCast, div_lt_iff hv']
    exact_mod_cast key

theorem frac_natCast_div (u v : ℕ) (hv : 0 < v) :
    (u:ℚ) / v - ⌊(u:ℚ) / (v:ℚ)⌋ = ((u % v : ℕ) : ℚ) / v := by
  have hv' : (0:ℚ) < v := by exact_mod_cast hv
  rw [floor_natCast_div u v hv, Int.cast_natCast,
    eq_div_iff hv'.ne', sub_mul, div_mul_cancel₀ _ hv'.ne']
  have h1 : (u:ℚ) = (v:ℚ) * ((u / v : ℕ) : ℚ) + ((u % v : ℕ) : ℚ) := by
    exact_mod_cast (Nat.div_add_mod u v).symm
  linarith

theorem rheN_cast (u v : ℕ) (hv : 0 < v) :
    (rheN u v : ℤ) = rhe ((u:ℚ) / v) := by
  have hv' : (0:ℚ) < v := by exact_mod_cast hv
  have hfl := floor_natCast_div u v hv
  have hfr := frac_natCast_div u v hv
  have k1 : (((u % v : ℕ) : ℚ) / v < 1/2) ↔ (2 * (u % v) < v) := by
    rw [div_lt_div_iff hv' (by norm_num : (0:ℚ) < 2), one_mul]
    have h' : ((u % v : ℕ) : ℚ) * 2 = ((u % v * 2 : ℕ) : ℚ) := by push_cast; ring
    rw [h', Nat.cast_lt]
    omega
  have k2 : ((1:ℚ)/2 < ((u % v : ℕ) : ℚ) / v) ↔ (v < 2 * (u % v)) := by
    rw [div_lt_div_iff (by norm_num : (0:ℚ) < 2) hv', one_mul]
    have h' : ((u % v : ℕ) : ℚ) * 2 = ((u % v * 2 : ℕ) : ℚ) := by push_cast; ring
    rw [h', Nat.cast_lt]
    omega
  have k3 : (((u / v : ℕ) : ℤ) % 2 = 0) ↔ ((u / v) % 2 = 0) := by omega
  unfold rheN rhe
  rw [hfr, hfl]
  simp only [k1, k2, k3]
  split_ifs <;> push_cast <;> ring

theorem ratExpN_eq (a d : ℕ) (ha : 0 < a) (hd : 0 < d) :
    ratExpN a d = ratExp ((a:ℚ) / d) := by
  have hd' : (0:ℚ) < d := by exact_mod_cast hd
  have ha' : (0:ℚ) < a := by exact_mod_cast ha
  have hcond : (1 ≤ (a:ℚ) / d) ↔ d ≤ a := by
    rw [le_div_iff hd', one_mul, Nat.cast_le]
  have hfloor1 : ⌊(a:ℚ) / (d:ℚ)⌋.toNat = a / d := by
    rw [floor_natCast_div a d hd, Int.toNat_natCast]
  have hinv : ((a:ℚ) / d)⁻¹ = (d:ℚ) / a := inv_div _ _
  have hfloor2 : ⌊((a:ℚ) / d)⁻¹⌋.toNat = d / a := by
    rw [hinv, floor_natCast_div d a ha, Int.toNat_natCast]
  have hcond2 : ∀ f : ℕ, ((2:ℚ) ^ (-(f:ℤ)) ≤ (a:ℚ) / d) ↔ (d ≤ a * 2 ^ f) := by
    intro f
    have h2f : (0:ℚ) < 2 ^ f := by positivity
    rw [zpow_neg, zpow_natCast, ← one_div, div_le_div_iff h2f hd', one_mul]
    have h' : (a:ℚ) * 2 ^ f = ((a * 2 ^ f : ℕ) : ℚ) := by push_cast; ring
    rw [h', Nat.cast_le]
  unfold ratExpN ratExp
  simp only [hcond, hfloor1, hfloor2, hcond2]

theorem pair_val (s : ℤ) (M : ℕ) (e1 : ℤ) :
    fval (if 0 ≤ e1 then (s * M * 2 ^ e1.toNat, 1) else (s * M, 2 ^ (-e1).toNat))
      = (s : ℚ) * M * 2 ^ e1 := by
  split_ifs with h
  · show ((s * M * 2 ^ e1.toNat : ℤ) : ℚ) / ((1:ℕ) : ℚ) = _
    push_cast
    rw [div_one, ← zpow_natCast (2:ℚ), Int.toNat_of_nonneg h]
  · show ((s * M : ℤ) : ℚ) / ((2 ^ (-e1).toNat : ℕ) : ℚ) = _
    push_cast
    rw [← zpow_natCast (2:ℚ), Int.toNat_of_nonneg (by omega), div_eq_mul_inv,
      ← zpow_neg, neg_neg]

theorem yval_pos_k (a d : ℕ) (k : ℤ) (hk : 0 ≤ k) :
    ((a * 2 ^ k.toNat : ℕ) : ℚ) / ((d:ℕ) : ℚ) = (a:ℚ) / d * 2 ^ k := by
  push_cast
  rw [← zpow_natCast (2:ℚ), Int.toNat_of_nonneg hk]
  ring

theorem yval_neg_k (a d : ℕ) (k : ℤ) (hk : k < 0) :
    ((a : ℕ) : ℚ) / ((d * 2 ^ (-k).toNat : ℕ) : ℚ) = (a:ℚ) / d * 2 ^ k := by
  push_cast
  rw [← zpow_natCast (2:ℚ), Int.toNat_of_nonneg (by omega), div_mul_eq_div_div,
    div_eq_mul_inv ((a:ℚ) / d), ← zpow_neg, neg_neg]

theorem rndFmag_cast (p : ℕ) (a d : ℕ) (ha : 0 < a) (hd : 0 < d) :
    ((rndFmag p a d : ℕ) : ℚ)
      = (rhe ((a:ℚ) / d * 2 ^ ((p:ℤ) - 1 - ratExp ((a:ℚ) / d))) : ℚ) := by
  unfold rndFmag
  rw [ratExpN_eq a d ha hd]
  set e := ratExp ((a:ℚ) / d) with he
  set k := (p:ℤ) - 1 - e with hk
  split_ifs with h
  · have hc := rheN_cast (a * 2 ^ k.toNat) d hd
    have hy := yval_pos_k a d k h
    rw [← hy]
    exact_mod_cast hc
  · have hkneg : k < 0 := by omega
    have hdp : 0 < d * 2 ^ (-k).toNat := by positivity
    have hc := rheN_cast a (d * 2 ^ (-k).toNat) hdp
    have hy := yval_neg_k a d k hkneg
    rw [← hy]
    exact_mod_cast hc

theorem rndF_den_pos (p : ℕ) (n : ℤ) (d : ℕ) : 0 < (rndF p n d).2 := by
  unfold rndF
  split_ifs <;> simp

theorem rndF_val (p : ℕ) (n : ℤ) (d : ℕ) (hd : 0 < d) :
    fval (rndF p n d) = roundFP p ((n:ℚ) / d) := by
  have hd' : (0:ℚ) < d := by exact_mod_cast hd
  by_cases h0 : n = 0
  · subst h0
    simp [rndF, roundFP, fval]
  · have haN : 0 < n.natAbs := Int.natAbs_pos.mpr h0
    have hq0 : ((n:ℚ) / d) ≠ 0 := by
      apply div_ne_zero _ hd'.ne'
      exact_mod_cast h0
    unfold rndF
    rw [if_neg h0, pair_val n.sign (rndFmag p n.natAbs d)
      (ratExpN n.natAbs d - ((p:ℤ) - 1)),
      rndFmag_cast p n.natAbs d haN hd, ratExpN_eq n.natAbs d haN hd]
    rcases lt_or_gt_of_ne h0 with hneg | hpos
    · have hsign : n.sign = -1 := Int.sign_eq_neg_one_iff_neg.mpr hneg
      have hmq : ((n.natAbs : ℕ) : ℚ) / d = -((n:ℚ) / d) := by
        rw [← neg_div]
        congr 1
        rw [Int.cast_natAbs, abs_of_neg hneg]
        push_cast
        ring
      have hqneg : ¬(0 < (n:ℚ) / d) := by
        have : (n:ℚ) < 0 := by exact_mod_cast hneg
        have := div_neg_of_neg_of_pos this hd'
        linarith
      unfold roundFP
      rw [if_neg hq0, if_neg hqneg, hmq, hsign]
      push_cast
      ring
    · have hsign : n.sign = 1 := Int.sign_eq_one_iff_pos.mpr hpos
      have hmq : ((n.natAbs : ℕ) : ℚ) / d = (n:ℚ) / d := by
        congr 1
        rw [Int.cast_natAbs, abs_of_pos hpos]
      have hqpos : 0 < (n:ℚ) / d := by
        apply div_pos _ hd'
        exact_mod_cast hpos
      unfold roundFP
      rw [if_neg hq0, if_pos hqpos, hmq, hsign]
      push_cast
      ring

theorem i2f32R_val (n : ℤ) : fval (i2f32R n) = roundFP 24 (n:ℚ) := by
  unfold i2f32R
  rw [rndF_val 24 n 1 one_pos]
  norm_num

theorem f32mulR_val (a b : ℤ × ℕ) (ha : 0 < a.2) (hb : 0 < b.2) :
    fval (f32mulR a b) = roundFP 24 (fval a * fval b) := by
  unfold f32mulR
  rw [rndF_val _ _ _ (Nat.mul_pos ha hb)]
  congr 1
  unfold fval
  push_cast
  rw [div_mul_div_comm]

theorem f32divR_val (a b : ℤ × ℕ) (ha : 0 < a.2) (hb : 0 < b.2) (hb1 : b.1 ≠ 0) :
    fval (f32divR a b) = roundFP 24 (fval a / fval b) := by
  unfold f32divR
  rw [rndF_val _ _ _ (Nat.mul_pos ha (Int.natAbs_pos.mpr hb1))]
  congr 1
  unfold fval
  have ha2 : ((a.2:ℕ):ℚ) ≠ 0 := by positivity
  have hb2 : ((b.2:ℕ):ℚ) ≠ 0 := by positivity
  have hb1' : ((b.1:ℤ):ℚ) ≠ 0 := by exact_mod_cast hb1
  rcases lt_or_gt_of_ne hb1 with h | h
  · rw [Int.sign_eq_neg_one_iff_neg.mpr h]
    push_cast [Int.cast_natAbs]
    rw [abs_of_neg (show ((b.1:ℤ):ℚ) < 0 by exact_mod_cast h)]
    field_simp
  · rw [Int.sign_eq_one_iff_pos.mpr h]
    push_cast [Int.cast_natAbs]
    rw [abs_of_pos (show (0:ℚ) < ((b.1:ℤ):ℚ) by exact_mod_cast h)]
    field_simp

theorem fgtR_iff (a b : ℤ × ℕ) (ha : 0 < a.2) (hb : 0 < b.2) :
    fgtR a b ↔ fval b < fval a := by
  unfold fgtR fval
  rw [div_lt_div_iff (by exact_mod_cast hb) (by exact_mod_cast ha)]
  constructor <;> intro h <;> exact_mod_cast h

theorem truncZR_val (x : ℤ × ℕ) (hx : 0 < x.2) : truncZR x = truncZ (fval x) := by
  unfold truncZR truncZ fval
  have hx' : (0:ℚ) < (x.2:ℚ) := by exact_mod_cast hx
  rcases le_or_lt 0 x.1 with h | h
  · rw [if_pos (by positivity)]
    rw [show x.1 = ((x.1.toNat : ℕ) : ℤ) by omega]
    rw [show (((x.1.toNat : ℕ) : ℤ):ℚ) = ((x.1.toNat : ℕ):ℚ) by push_cast; ring]
    rw [floor_natCast_div x.1.toNat x.2 hx]
    rfl
  · have hneg : ((x.1:ℤ):ℚ) / (x.2:ℚ) < 0 :=
      div_neg_of_neg_of_pos (by exact_mod_cast h) hx'
    rw [if_neg (not_le.mpr hneg)]
    obtain ⟨a, ha⟩ : ∃ a : ℕ, x.1 = -(a:ℤ) := ⟨(-x.1).toNat, by omega⟩
    rw [ha]
    have hfl : ⌊-(((-(a:ℤ)):ℚ) / (x.2:ℚ))⌋ = ((a / x.2 : ℕ) : ℤ) := by
      rw [show -(((-(a:ℤ)):ℚ) / (x.2:ℚ)) = ((a:ℕ):ℚ) / (x.2:ℚ) by push_cast; ring]
      exact floor_natCast_div a x.2 hx
    rw [Int.cast_neg, hfl, Int.neg_tdiv]
    congr 1

theorem roundFP_int_24 (s : ℤ) (hs1 : 1 ≤ s) (hs2 : s ≤ 16777216) :
    roundFP 24 (s:ℚ) = (s:ℚ) :=
  roundFP_int 24 (by norm_num) s hs1
    (by have h : (2:ℤ)^(24:ℕ) = 16777216 := by norm_num
        omega)

theorem i2f32R_den_pos (n : ℤ) : 0 < (i2f32R n).2 := rndF_den_pos 24 n 1

theorem f32divR_den_pos (a b : ℤ × ℕ) : 0 < (f32divR a b).2 :=
  rndF_den_pos 24 _ _

theorem f32mulR_den_pos (a b : ℤ × ℕ) : 0 < (f32mulR a b).2 :=
  rndF_den_pos 24 _ _

theorem i2f32R_int_val (s : ℤ) (hs1 : 1 ≤ s) (hs2 : s ≤ 16777216) :
    fval (i2f32R s) = (s:ℚ) := by
  rw [i2f32R_val]
  exact roundFP_int_24 s hs1 hs2

theorem f32divR_int_val (v s : ℤ) (hs1 : 1 ≤ s) (hs2 : s ≤ 16777216)
    (hv1 : 1 ≤ v) (hv2 : v ≤ 16777216) :
    fval (f32divR (i2f32R v) (i2f32R s)) = roundFP 24 ((v:ℚ) / (s:ℚ)) := by
  have hsE := i2f32R_int_val s hs1 hs2
  have hvE := i2f32R_int_val v hv1 hv2
  have hs' : (0:ℚ) < (s:ℚ) := by exact_mod_cast (by omega : (0:ℤ) < s)
  have hnum : (i2f32R s).1 ≠ 0 := by
    intro h0
    have : fval (i2f32R s) = 0 := by unfold fval; rw [h0]; norm_num
    rw [hsE] at this
    exact hs'.ne' this
  rw [f32divR_val (i2f32R v) (i2f32R s) (i2f32R_den_pos v) (i2f32R_den_pos s) hnum,
    hsE, hvE]

theorem truncZR_f32mulR_int (s : ℤ) (p : ℤ × ℕ) (hs1 : 1 ≤ s)
    (hs2 : s ≤ 16777216) (hp2 : 0 < p.2) :
    truncZR (f32mulR (i2f32R s) p) = truncZ (roundFP 24 ((s:ℚ) * fval p)) := by
  rw [truncZR_val _ (f32mulR_den_pos (i2f32R s) p),
    f32mulR_val (i2f32R s) p (i2f32R_den_pos s) hp2,
    i2f32R_val, roundFP_int_24 s hs1 hs2]

theorem axis_le (s v : ℤ) (w : ℚ) (hs1 : 1 ≤ s) (hv1 : 1 ≤ v) (hv2 : v ≤ 8388607)
    (hw0 : 0 ≤ w) (hw : w ≤ roundFP 24 ((v:ℚ) / (s:ℚ))) :
    truncZ (roundFP 24 ((s:ℚ) * w)) ≤ v := by
  have hs' : (0:ℚ) < s := by exact_mod_cast (by omega : (0:ℤ) < s)
  have hv' : (0:ℚ) < v := by exact_mod_cast (by omega : (0:ℤ) < v)
  have hvQ : (v:ℚ) ≤ 8388607 := by exact_mod_cast hv2
  set q := (v:ℚ) / (s:ℚ) with hqdef
  have hq0 : 0 < q := div_pos hv' hs'
  have herr := roundFP_err 24 q hq0.le
  rw [abs_le, show ((2:ℚ)^(24:ℕ)) = 16777216 by norm_num] at herr
  have hsq : (s:ℚ) * q = v := by rw [hqdef]; field_simp
  have hw1 : w ≤ q + q / 16777216 := by linarith [herr.2, hw]
  have hsp : (s:ℚ) * w ≤ (v:ℚ) + v / 16777216 := by
    have h1 : (s:ℚ) * w ≤ (s:ℚ) * (q + q / 16777216) :=
      mul_le_mul_of_nonneg_left hw1 hs'.le
    have h2 : (s:ℚ) * (q + q / 16777216) = (s * q) + (s * q) / 16777216 := by ring
    rw [h2, hsq] at h1
    exact h1
  have hsp0 : 0 ≤ (s:ℚ) * w := mul_nonneg hs'.le hw0
  have herr2 := roundFP_err 24 ((s:ℚ) * w) hsp0
  rw [abs_le, show ((2:ℚ)^(24:ℕ)) = 16777216 by norm_num] at herr2
  have hub : roundFP 24 ((s:ℚ) * w) < v + 1 := by linarith [herr2.2, hsp, hvQ]
  have h0 : 0 ≤ roundFP 24 ((s:ℚ) * w) := roundFP_nonneg _ _ hsp0
  unfold truncZ
  rw [if_pos h0]
  have hfl := Int.floor_lt.mpr
    (show roundFP 24 ((s:ℚ) * w) < ((v + 1 : ℤ):ℚ) by push_cast; linarith)
  omega

theorem axis_ge (s v : ℤ) (w : ℚ) (hs1 : 1 ≤ s) (hv1 : 1 ≤ v) (hv2 : v ≤ 8388607)
    (hw : roundFP 24 ((v:ℚ) / (s:ℚ)) ≤ w) :
    v - 1 ≤ truncZ (roundFP 24 ((s:ℚ) * w)) := by
  have hs' : (0:ℚ) < s := by exact_mod_cast (by omega : (0:ℤ) < s)
  have hv' : (0:ℚ) < v := by exact_mod_cast (by omega : (0:ℤ) < v)
  have hvQ : (v:ℚ) ≤ 8388607 := by exact_mod_cast hv2
  set q := (v:ℚ) / (s:ℚ) with hqdef
  have hq0 : 0 < q := div_pos hv' hs'
  have herr := roundFP_err 24 q hq0.le
  rw [abs_le, show ((2:ℚ)^(24:ℕ)) = 16777216 by norm_num] at herr
  have hsq : (s:ℚ) * q = v := by rw [hqdef]; field_simp
  have hw1 : q - q / 16777216 ≤ w := by linarith [herr.1, hw]
  have hw0 : 0 ≤ w := by linarith [hq0]
  have hsp : (v:ℚ) - v / 16777216 ≤ (s:ℚ) * w := by
    have h1 : (s:ℚ) * (q - q / 16777216) ≤ (s:ℚ) * w :=
      mul_le_mul_of_nonneg_left hw1 hs'.le
    have h2 : (s:ℚ) * (q - q / 16777216) = (s * q) - (s * q) / 16777216 := by ring
    rw [h2, hsq] at h1
    exact h1
  have hsp0 : 0 ≤ (s:ℚ) * w := mul_nonneg hs'.le hw0
  have herr2 := roundFP_err 24 ((s:ℚ) * w) hsp0
  rw [abs_le, show ((2:ℚ)^(24:ℕ)) = 16777216 by norm_num] at herr2
  have hlb : (v:ℚ) - 1 < roundFP 24 ((s:ℚ) * w) := by linarith [herr2.1, hsp, hvQ]
  have h0 : 0 ≤ roundFP 24 ((s:ℚ) * w) := roundFP_nonneg _ _ hsp0
  unfold truncZ
  rw [if_pos h0]
  have hfl := Int.le_floor.mpr
    (show ((v - 1 : ℤ):ℚ) ≤ roundFP 24 ((s:ℚ) * w) by push_cast; linarith)
  omega

theorem axis_nonneg (s : ℤ) (w : ℚ) (hs0 : 0 ≤ (s:ℚ)) (hw0 : 0 ≤ w) :
    0 ≤ truncZ (roundFP 24 ((s:ℚ) * w)) := by
  have h0 := roundFP_nonneg 24 _ (mul_nonneg hs0 hw0)
  unfold truncZ
  rw [if_pos h0]
  exact Int.floor_nonneg.mpr h0

theorem scaled_dims_core (src vp : qimg_point)
    (h : 1 ≤ src.x ∧ src.x ≤ 4096 ∧ 1 ≤ src.y ∧ src.y ≤ 4096 ∧
         1 ≤ vp.x ∧ vp.x ≤ 4096 ∧ 1 ≤ vp.y ∧ vp.y ≤ 4096) :
    (qimg_get_scaled_dims src vp SCALE_FIT).x ≤ vp.x ∧
    (qimg_get_scaled_dims src vp SCALE_FIT).y ≤ vp.y ∧
    vp.x - 1 ≤ (qimg_get_scaled_dims src vp SCALE_FILL).x ∧
    vp.y - 1 ≤ (qimg_get_scaled_dims src vp SCALE_FILL).y ∧
    0 ≤ (qimg_get_scaled_dims src vp SCALE_FIT).x ∧
    0 ≤ (qimg_get_scaled_dims src vp SCALE_FIT).y ∧
    0 ≤ (qimg_get_scaled_dims src vp SCALE_FILL).x ∧
    0 ≤ (qimg_get_scaled_dims src vp SCALE_FILL).y := by
  obtain ⟨hsx1, hsx2, hsy1, hsy2, hvx1, hvx2, hvy1, hvy2⟩ := h
  set px := f32divR (i2f32R vp.x) (i2f32R src.x) with hpxd
  set py := f32divR (i2f32R vp.y) (i2f32R src.y) with hpyd
  have hpxv : fval px = roundFP 24 ((vp.x:ℚ) / (src.x:ℚ)) :=
    f32divR_int_val vp.x src.x hsx1 (by omega) hvx1 (by omega)
  have hpyv : fval py = roundFP 24 ((vp.y:ℚ) / (src.y:ℚ)) :=
    f32divR_int_val vp.y src.y hsy1 (by omega) hvy1 (by omega)
  have hpx2 : 0 < px.2 := f32divR_den_pos _ _
  have hpy2 : 0 < py.2 := f32divR_den_pos _ _
  have hqx0 : (0:ℚ) ≤ (vp.x:ℚ) / (src.x:ℚ) :=
    div_nonneg (by exact_mod_cast (by omega : (0:ℤ) ≤ vp.x))
      (by exact_mod_cast (by omega : (0:ℤ) ≤ src.x))
  have hqy0 : (0:ℚ) ≤ (vp.y:ℚ) / (src.y:ℚ) :=
    div_nonneg (by exact_mod_cast (by omega : (0:ℤ) ≤ vp.y))
      (by exact_mod_cast (by omega : (0:ℤ) ≤ src.y))
  have hpx0 : 0 ≤ fval px := by rw [hpxv]; exact roundFP_nonneg _ _ hqx0
  have hpy0 : 0 ≤ fval py := by rw [hpyv]; exact roundFP_nonneg _ _ hqy0
  have hPfit2 : 0 < (if fgtR px py then py else px).2 := by
    split_ifs
    exacts [hpy2, hpx2]
  have hPfill2 : 0 < (if fgtR px py then px else py).2 := by
    split_ifs
    exacts [hpx2, hpy2]
  have hPfit0 : 0 ≤ fval (if fgtR px py then py else px) := by
    split_ifs
    exacts [hpy0, hpx0]
  have hPfill0 : 0 ≤ fval (if fgtR px py then px else py) := by
    split_ifs
    exacts [hpx0, hpy0]
  have hfit_le_px : fval (if fgtR px py then py else px) ≤ fval px := by
    split_ifs with hc
    · exact ((fgtR_iff px py hpx2 hpy2).mp hc).le
    · exact le_refl _
  have hfit_le_py : fval (if fgtR px py then py else px) ≤ fval py := by
    split_ifs with hc
    · exact le_refl _
    · rw [fgtR_iff px py hpx2 hpy2] at hc
      exact not_lt.mp hc
  have hfill_ge_px : fval px ≤ fval (if fgtR px py then px else py) := by
    split_ifs with hc
    · exact le_refl _
    · rw [fgtR_iff px py hpx2 hpy2] at hc
      exact not_lt.mp hc
  have hfill_ge_py : fval py ≤ fval (if fgtR px py then px else py) := by
    split_ifs with hc
    · exact ((fgtR_iff px py hpx2 hpy2).mp hc).le
    · exact le_refl _
  refine ⟨?_, ?_, ?_, ?_, ?_, ?_, ?_, ?_⟩
  · show truncZR (f32mulR (i2f32R src.x) (if fgtR px py then py else px)) ≤ vp.x
    rw [truncZR_f32mulR_int src.x _ hsx1 (by omega) hPfit2]
    exact axis_le src.x vp.x _ hsx1 hvx1 (by omega) hPfit0 (by rw [← hpxv]; exact hfit_le_px)
  · show truncZR (f32mulR (i2f32R src.y) (if fgtR px py then py else px)) ≤ vp.y
    rw [truncZR_f32mulR_int src.y _ hsy1 (by omega) hPfit2]
    exact axis_le src.y vp.y _ hsy1 hvy1 (by omega) hPfit0 (by rw [← hpyv]; exact hfit_le_py)
  · show vp.x - 1 ≤ truncZR (f32mulR (i2f32R src.x) (if fgtR px py then px else py))
    rw [truncZR_f32mulR_int src.x _ hsx1 (by omega) hPfill2]
    exact axis_ge src.x vp.x _ hsx1 hvx1 (by omega) (by rw [← hpxv]; exact hfill_ge_px)
  · show vp.y - 1 ≤ truncZR (f32mulR (i2f32R src.y) (if fgtR px py then px else py))
    rw [truncZR_f32mulR_int src.y _ hsy1 (by omega) hPfill2]
    exact axis_ge src.y vp.y _ hsy1 hvy1 (by omega) (by rw [← hpyv]; exact hfill_ge_py)
  · show 0 ≤ truncZR (f32mulR (i2f32R src.x) (if fgtR px py then py else px))
    rw [truncZR_f32mulR_int src.x _ hsx1 (by omega) hPfit2]
    exact axis_nonneg src.x _ (by exact_mod_cast (by omega : (0:ℤ) ≤ src.x)) hPfit0
  · show 0 ≤ truncZR (f32mulR (i2f32R src.y) (if fgtR px py then py else px))
    rw [truncZR_f32mulR_int src.y _ hsy1 (by omega) hPfit2]
    exact axis_nonneg src.y _ (by exact_mod_cast (by omega : (0:ℤ) ≤ src.y)) hPfit0
  · show 0 ≤ truncZR (f32mulR (i2f32R src.x) (if fgtR px py then px else py))
    rw [truncZR_f32mulR_int src.x _ hsx1 (by omega) hPfill2]
    exact axis_nonneg src.x _ (by exact_mod_cast (by omega : (0:ℤ) ≤ src.x)) hPfill0
  · show 0 ≤ truncZR (f32mulR (i2f32R src.y) (if fgtR px py then px else py))
    rw [truncZR_f32mulR_int src.y _ hsy1 (by omega) hPfill2]
    exact axis_nonneg src.y _ (by exact_mod_cast (by omega : (0:ℤ) ≤ src.y)) hPfill0

/-- C2, counterexample to the claim as stated: single-precision rounding in
`qimg_get_scaled_dims` breaks the Fit and Fill bounds at large viewports.
For src = 1x1 and vp = 16777219x16777219, `(float) 16777219` rounds
(ties-to-even) to 16777220, so Fit returns 16777220 > vp.x; for
vp = 16777217x16777217, `(float) 16777217` rounds down to 16777216, so
Fill returns 16777216 < vp.x. -/
theorem qimg_c2_cex :
    ¬((qimg_get_scaled_dims ⟨1,1⟩ ⟨16777219,16777219⟩ SCALE_FIT).x ≤ 16777219) ∧
    ¬((16777217:ℤ) ≤ (qimg_get_scaled_dims ⟨1,1⟩ ⟨16777217,16777217⟩ SCALE_FILL).x) := by
  decide

/-- C2 (amended): for all source sizes and viewports with components in
[1, 4096] (so that every value of the C computation stays exactly
representable where needed and no `int` conversion overflows),
`qimg_get_scaled_dims` under Fit yields target.x ≤ viewport.x and
target.y ≤ viewport.y; under Fill yields target.x ≥ viewport.x − 1 and
target.y ≥ viewport.y − 1 (one pixel per axis may be lost to float
rounding); under Stretch yields exactly the viewport; under Disabled
yields the source unchanged. -/
theorem qimg_c2_scaled_dims_bounds (src vp : qimg_point)
    (h : 1 ≤ src.x ∧ src.x ≤ 4096 ∧ 1 ≤ src.y ∧ src.y ≤ 4096 ∧
         1 ≤ vp.x ∧ vp.x ≤ 4096 ∧ 1 ≤ vp.y ∧ vp.y ≤ 4096) :
    qimg_get_scaled_dims src vp SCALE_DISABLED = src ∧
    qimg_get_scaled_dims src vp SCALE_STRETCH = vp ∧
    (qimg_get_scaled_dims src vp SCALE_FIT).x ≤ vp.x ∧
    (qimg_get_scaled_dims src vp SCALE_FIT).y ≤ vp.y ∧
    vp.x - 1 ≤ (qimg_get_scaled_dims src vp SCALE_FILL).x ∧
    vp.y - 1 ≤ (qimg_get_scaled_dims src vp SCALE_FILL).y := by
  have hc := scaled_dims_core src vp h
  exact ⟨rfl, rfl, hc.1, hc.2.1, hc.2.2.1, hc.2.2.2.1⟩

/-- Witness for C2 at src = 4x3, vp = 8x6. -/
theorem qimg_c2_witness :
    ((1:ℤ) ≤ 4 ∧ (4:ℤ) ≤ 4096 ∧ (1:ℤ) ≤ 3 ∧ (3:ℤ) ≤ 4096 ∧
     (1:ℤ) ≤ 8 ∧ (8:ℤ) ≤ 4096 ∧ (1:ℤ) ≤ 6 ∧ (6:ℤ) ≤ 4096) ∧
    (qimg_get_scaled_dims ⟨4,3⟩ ⟨8,6⟩ SCALE_DISABLED = ⟨4,3⟩ ∧
     qimg_get_scaled_dims ⟨4,3⟩ ⟨8,6⟩ SCALE_STRETCH = ⟨8,6⟩ ∧
     (qimg_get_scaled_dims ⟨4,3⟩ ⟨8,6⟩ SCALE_FIT).x ≤ 8 ∧
     (qimg_get_scaled_dims ⟨4,3⟩ ⟨8,6⟩ SCALE_FIT).y ≤ 6 ∧
     (8:ℤ) - 1 ≤ (qimg_get_scaled_dims ⟨4,3⟩ ⟨8,6⟩ SCALE_FILL).x ∧
     (6:ℤ) - 1 ≤ (qimg_get_scaled_dims ⟨4,3⟩ ⟨8,6⟩ SCALE_FILL).y) :=
  ⟨by decide, qimg_c2_scaled_dims_bounds ⟨4,3⟩ ⟨8,6⟩ (by decide)⟩

/-- C3, counterexample to the claim as stated: there is no minimum-1 clamp
in `qimg_get_scaled_dims` (Fit of a 10x1 source onto a 1x100 viewport
gives a 0 y-axis), and the result is the truncation of the
single-precision product, not the floor of the real-valued product
(Fill of 1x1 onto 16777217x3 gives 16777216, but the real scale factor
is max(16777217/1, 3/1) = 16777217). -/
theorem qimg_c3_cex :
    ¬(1 ≤ (qimg_get_scaled_dims ⟨10,1⟩ ⟨1,100⟩ SCALE_FIT).y) ∧
    (qimg_get_scaled_dims ⟨1,1⟩ ⟨16777217,3⟩ SCALE_FILL).x
      ≠ ⌊(1:ℚ) * max ((16777217:ℚ)/(1:ℚ)) ((3:ℚ)/(1:ℚ))⌋ := by
  constructor
  · decide
  · have hm : (1:ℚ) * max ((16777217:ℚ)/(1:ℚ)) ((3:ℚ)/(1:ℚ))
        = (((16777217:ℤ)):ℚ) := by
      rw [max_eq_left (by norm_num)]
      norm_num
    rw [hm, Int.floor_intCast]
    decide

/-- C3 (amended): under Fit and Fill each axis of `qimg_get_scaled_dims`
is the truncation toward zero of the single-precision product of the
source dimension and the scale factor; it is always ≥ 0, but there is no
minimum-1 clamp: for positive inputs an axis can come out 0. -/
theorem qimg_c3_scaled_dims_nonneg (src vp : qimg_point)
    (h : 1 ≤ src.x ∧ src.x ≤ 4096 ∧ 1 ≤ src.y ∧ src.y ≤ 4096 ∧
         1 ≤ vp.x ∧ vp.x ≤ 4096 ∧ 1 ≤ vp.y ∧ vp.y ≤ 4096) :
    (0 ≤ (qimg_get_scaled_dims src vp SCALE_FIT).x ∧
     0 ≤ (qimg_get_scaled_dims src vp SCALE_FIT).y ∧
     0 ≤ (qimg_get_scaled_dims src vp SCALE_FILL).x ∧
     0 ≤ (qimg_get_scaled_dims src vp SCALE_FILL).y) ∧
    (∃ s2 v2 : qimg_point, 1 ≤ s2.x ∧ s2.x ≤ 4096 ∧ 1 ≤ s2.y ∧ s2.y ≤ 4096 ∧
      1 ≤ v2.x ∧ v2.x ≤ 4096 ∧ 1 ≤ v2.y ∧ v2.y ≤ 4096 ∧
      (qimg_get_scaled_dims s2 v2 SCALE_FIT).y = 0) := by
  refine ⟨⟨(scaled_dims_core src vp h).2.2.2.2.1,
          (scaled_dims_core src vp h).2.2.2.2.2.1,
          (scaled_dims_core src vp h).2.2.2.2.2.2.1,
          (scaled_dims_core src vp h).2.2.2.2.2.2.2⟩,
         ⟨⟨10,1⟩, ⟨1,100⟩, by decide⟩⟩

/-- Witness for C3 at src = 5x7, vp = 9x2. -/
theorem qimg_c3_witness :
    ((1:ℤ) ≤ 5 ∧ (5:ℤ) ≤ 4096 ∧ (1:ℤ) ≤ 7 ∧ (7:ℤ) ≤ 4096 ∧
     (1:ℤ) ≤ 9 ∧ (9:ℤ) ≤ 4096 ∧ (1:ℤ) ≤ 2 ∧ (2:ℤ) ≤ 4096) ∧
    ((0 ≤ (qimg_get_scaled_dims ⟨5,7⟩ ⟨9,2⟩ SCALE_FIT).x ∧
      0 ≤ (qimg_get_scaled_dims ⟨5,7⟩ ⟨9,2⟩ SCALE_FIT).y ∧
      0 ≤ (qimg_get_scaled_dims ⟨5,7⟩ ⟨9,2⟩ SCALE_FILL).x ∧
      0 ≤ (qimg_get_scaled_dims ⟨5,7⟩ ⟨9,2⟩ SCALE_FILL).y) ∧
     (∃ s2 v2 : qimg_point, 1 ≤ s2.x ∧ s2.x ≤ 4096 ∧ 1 ≤ s2.y ∧ s2.y ≤ 4096 ∧
       1 ≤ v2.x ∧ v2.x ≤ 4096 ∧ 1 ≤ v2.y ∧ v2.y ≤ 4096 ∧
       (qimg_get_scaled_dims s2 v2 SCALE_FIT).y = 0)) :=
  ⟨by decide, qimg_c3_scaled_dims_nonneg ⟨5,7⟩ ⟨9,2⟩ (by decide)⟩

theorem writeBytes_at0 (buf : ℕ → ℕ) (o : ℕ) (c : qimg_color) :
    writeBytes buf o c o = c.b := by
  unfold writeBytes
  rw [if_pos rfl]

theorem writeBytes_at1 (buf : ℕ → ℕ) (o : ℕ) (c : qimg_color) :
    writeBytes buf o c (o + 1) = c.g := by
  unfold writeBytes
  rw [if_neg (by omega), if_pos rfl]

theorem writeBytes_at2 (buf : ℕ → ℕ) (o : ℕ) (c : qimg_color) :
    writeBytes buf o c (o + 2) = c.r := by
  unfold writeBytes
  rw [if_neg (by omega), if_neg (by omega), if_pos rfl]

theorem writeBytes_at3 (buf : ℕ → ℕ) (o : ℕ) (c : qimg_color) :
    writeBytes buf o c (o + 3) = c.a := by
  unfold writeBytes
  rw [if_neg (by omega), if_neg (by omega), if_neg (by omega), if_pos rfl]

theorem writeBytes_miss (buf : ℕ → ℕ) (o : ℕ) (c : qimg_color) (i : ℕ)
    (h : i < o ∨ o + 3 < i) : writeBytes buf o c i = buf i := by
  unfold writeBytes
  rw [if_neg (by omega), if_neg (by omega), if_neg (by omega), if_neg (by omega)]

theorem raster_ne (X x1 y1 x2 y2 : ℕ) (h1 : x1 < X) (h2 : x2 < X)
    (hne : x1 ≠ x2 ∨ y1 ≠ y2) : y1 * X + x1 ≠ y2 * X + x2 := by
  intro hEq
  rcases Nat.lt_trichotomy y1 y2 with hy | hy | hy
  · have hm : (y1 + 1) * X ≤ y2 * X := Nat.mul_le_mul_right X (by omega)
    have e1 : (y1 + 1) * X = y1 * X + X := by ring
    omega
  · subst hy
    rcases hne with hx | hy2
    · omega
    · exact hy2 rfl
  · have hm : (y2 + 1) * X ≤ y1 * X := Nat.mul_le_mul_right X (by omega)
    have e1 : (y2 + 1) * X = y2 * X + X := by ring
    omega

theorem qimg_draw_pixel_apart (im : qimg_image) (fb_res : qimg_point)
    (pos : qimg_position) (bg : qimg_bg) (x y sx sy j : ℕ) (buf : ℕ → ℕ)
    (hx : x < fb_res.x.toNat) (hsx : sx < fb_res.x.toNat)
    (hne : x ≠ sx ∨ y ≠ sy) (hj : j < 4) :
    qimg_draw_pixel im fb_res pos bg x y buf (offsOf fb_res sx sy + j)
      = buf (offsOf fb_res sx sy + j) := by
  have hAB := raster_ne fb_res.x.toNat x y sx sy hx hsx hne
  have hmiss : offsOf fb_res sx sy + j < offsOf fb_res x y ∨
      offsOf fb_res x y + 3 < offsOf fb_res sx sy + j := by
    unfold offsOf
    omega
  unfold qimg_draw_pixel
  split_ifs <;> first | rfl | exact writeBytes_miss _ _ _ _ hmiss

theorem writeBytes_dep (b b2 : ℕ → ℕ) (o : ℕ) (c : qimg_color) (i : ℕ)
    (h : b i = b2 i) : writeBytes b o c i = writeBytes b2 o c i := by
  unfold writeBytes
  split_ifs <;> first | rfl | exact h

theorem qimg_draw_pixel_dep (im : qimg_image) (fb_res : qimg_point)
    (pos : qimg_position) (bg : qimg_bg) (x y : ℕ) (b b2 : ℕ → ℕ) (i : ℕ)
    (h : b i = b2 i) :
    qimg_draw_pixel im fb_res pos bg x y b i
      = qimg_draw_pixel im fb_res pos bg x y b2 i := by
  unfold qimg_draw_pixel
  split_ifs <;> first | exact h | exact writeBytes_dep _ _ _ _ _ h

theorem foldl_apply_eq {α : Type} (body : (ℕ → ℕ) → α → (ℕ → ℕ)) (o : ℕ) :
    ∀ (l : List α) (b : ℕ → ℕ), (∀ g a, a ∈ l → body g a o = g o) →
      (l.foldl body b) o = b o := by
  intro l
  induction l with
  | nil => intro b _; rfl
  | cons a l ih =>
    intro b h
    rw [List.foldl_cons,
      ih (body b a) (fun g a2 ha2 => h g a2 (List.mem_cons_of_mem a ha2))]
    exact h b a (List.mem_cons_self a l)

theorem foldl_range_single (body : (ℕ → ℕ) → ℕ → (ℕ → ℕ)) (o s : ℕ)
    (hdep : ∀ g g2, g o = g2 o → body g s o = body g2 s o) :
    ∀ n : ℕ, s < n → (∀ g y, y < n → y ≠ s → body g y o = g o) →
      ∀ b, (List.range n).foldl body b o = body b s o := by
  intro n
  induction n with
  | zero => omega
  | succ m ih =>
    intro hs hmiss b
    rw [List.range_succ, List.foldl_append, List.foldl_cons, List.foldl_nil]
    by_cases hm : m = s
    · subst hm
      have hpre : (List.range m).foldl body b o = b o :=
        foldl_apply_eq body o (List.range m) b
          (fun g a ha =>
            hmiss g a (by have := List.mem_range.mp ha; omega)
              (by have := List.mem_range.mp ha; omega))
      exact hdep _ _ hpre
    · rw [hmiss _ m (by omega) hm]
      exact ih (by omega) (fun g y hy hys => hmiss g y (by omega) hys) b

theorem qimg_draw_image_buf_char (im : qimg_image) (fb_res : qimg_point)
    (pos : qimg_position) (bg : qimg_bg) (buf0 : ℕ → ℕ) (sx sy j : ℕ)
    (hsx : sx < fb_res.x.toNat) (hsy : sy < fb_res.y.toNat) (hj : j < 4) :
    qimg_draw_image_buf im fb_res pos bg buf0 (offsOf fb_res sx sy + j)
      = qimg_draw_pixel im fb_res pos bg sx sy buf0 (offsOf fb_res sx sy + j) := by
  have hinner : ∀ b : ℕ → ℕ,
      ((List.range fb_res.y.toNat).foldl
        (fun b2 y => qimg_draw_pixel im fb_res pos bg sx y b2) b)
        (offsOf fb_res sx sy + j)
      = qimg_draw_pixel im fb_res pos bg sx sy b (offsOf fb_res sx sy + j) := by
    intro b
    exact foldl_range_single _ _ sy
      (fun g g2 hg => qimg_draw_pixel_dep im fb_res pos bg sx sy g g2 _ hg)
      fb_res.y.toNat hsy
      (fun g y hy hys =>
        qimg_draw_pixel_apart im fb_res pos bg sx y sx sy j g hsx hsx
          (Or.inr hys) hj)
      b
  have houter := foldl_range_single
    (fun b x => (List.range fb_res.y.toNat).foldl
      (fun b2 y => qimg_draw_pixel im fb_res pos bg x y b2) b)
    (offsOf fb_res sx sy + j) sx
    (fun g g2 hg => by
      show (List.range fb_res.y.toNat).foldl
          (fun b2 y => qimg_draw_pixel im fb_res pos bg sx y b2) g
          (offsOf fb_res sx sy + j)
        = (List.range fb_res.y.toNat).foldl
          (fun b2 y => qimg_draw_pixel im fb_res pos bg sx y b2) g2
          (offsOf fb_res sx sy + j)
      rw [hinner g, hinner g2]
      exact qimg_draw_pixel_dep im fb_res pos bg sx sy g g2 _ hg)
    fb_res.x.toNat hsx
    (fun g x hx hxs =>
      foldl_apply_eq _ _ (List.range fb_res.y.toNat) g
        (fun g2 y hy =>
          qimg_draw_pixel_apart im fb_res pos bg x y sx sy j g2 hx hsx
            (Or.inl hxs) hj))
    buf0
  unfold qimg_draw_image_buf
  rw [houter]
  exact hinner buf0

theorem draw_buf_slots (im : qimg_image) (fb_res : qimg_point)
    (pos : qimg_position) (bg : qimg_bg) (buf0 : ℕ → ℕ) (sx sy : ℕ)
    (t : qimg_point)
    (hsx : sx < fb_res.x.toNat) (hsy : sy < fb_res.y.toNat)
    (ht : qimg_translate_coords pos im.res fb_res (sx:ℤ) (sy:ℤ) = t) :
    ((0 ≤ t.x ∧ t.x < im.res.x ∧ 0 ≤ t.y ∧ t.y < im.res.y) →
      qimg_draw_image_buf im fb_res pos bg buf0 (offsOf fb_res sx sy)
        = (qimg_get_pixel im t.x t.y).b ∧
      qimg_draw_image_buf im fb_res pos bg buf0 (offsOf fb_res sx sy + 1)
        = (qimg_get_pixel im t.x t.y).g ∧
      qimg_draw_image_buf im fb_res pos bg buf0 (offsOf fb_res sx sy + 2)
        = (qimg_get_pixel im t.x t.y).r ∧
      qimg_draw_image_buf im fb_res pos bg buf0 (offsOf fb_res sx sy + 3)
        = (qimg_get_pixel im t.x t.y).a) ∧
    (¬(0 ≤ t.x ∧ t.x < im.res.x ∧ 0 ≤ t.y ∧ t.y < im.res.y) →
      (bg ≠ BG_DISABLED →
        qimg_draw_image_buf im fb_res pos bg buf0 (offsOf fb_res sx sy)
          = (qimg_get_bg_color bg).b ∧
        qimg_draw_image_buf im fb_res pos bg buf0 (offsOf fb_res sx sy + 1)
          = (qimg_get_bg_color bg).g ∧
        qimg_draw_image_buf im fb_res pos bg buf0 (offsOf fb_res sx sy + 2)
          = (qimg_get_bg_color bg).r ∧
        qimg_draw_image_buf im fb_res pos bg buf0 (offsOf fb_res sx sy + 3)
          = (qimg_get_bg_color bg).a) ∧
      (bg = BG_DISABLED →
        qimg_draw_image_buf im fb_res pos bg buf0 (offsOf fb_res sx sy)
          = buf0 (offsOf fb_res sx sy) ∧
        qimg_draw_image_buf im fb_res pos bg buf0 (offsOf fb_res sx sy + 1)
          = buf0 (offsOf fb_res sx sy + 1) ∧
        qimg_draw_image_buf im fb_res pos bg buf0 (offsOf fb_res sx sy + 2)
          = buf0 (offsOf fb_res sx sy + 2) ∧
        qimg_draw_image_buf im fb_res pos bg buf0 (offsOf fb_res sx sy + 3)
          = buf0 (offsOf fb_res sx sy + 3))) := by
  have h0 := qimg_draw_image_buf_char im fb_res pos bg buf0 sx sy 0 hsx hsy (by omega)
  have h1 := qimg_draw_image_buf_char im fb_res pos bg buf0 sx sy 1 hsx hsy (by omega)
  have h2 := qimg_draw_image_buf_char im fb_res pos bg buf0 sx sy 2 hsx hsy (by omega)
  have h3 := qimg_draw_image_buf_char im fb_res pos bg buf0 sx sy 3 hsx hsy (by omega)
  rw [Nat.add_zero] at h0
  unfold qimg_draw_pixel at h0 h1 h2 h3
  rw [ht] at h0 h1 h2 h3
  constructor
  · intro hin
    have hcond : ¬(im.res.x ≤ t.x ∨ im.res.y ≤ t.y ∨ t.x < 0 ∨ t.y < 0) := by
      obtain ⟨a1, a2, a3, a4⟩ := hin
      omega
    rw [if_neg hcond] at h0 h1 h2 h3
    rw [writeBytes_at0] at h0
    rw [writeBytes_at1] at h1
    rw [writeBytes_at2] at h2
    rw [writeBytes_at3] at h3
    exact ⟨h0, h1, h2, h3⟩
  · intro hout
    have hcond : im.res.x ≤ t.x ∨ im.res.y ≤ t.y ∨ t.x < 0 ∨ t.y < 0 := by
      by_contra hcon
      exact hout (by omega)
    rw [if_pos hcond] at h0 h1 h2 h3
    constructor
    · intro hbg
      rw [if_neg hbg] at h0 h1 h2 h3
      rw [writeBytes_at0] at h0
      rw [writeBytes_at1] at h1
      rw [writeBytes_at2] at h2
      rw [writeBytes_at3] at h3
      exact ⟨h0, h1, h2, h3⟩
    · intro hbg
      rw [if_pos hbg] at h0 h1 h2 h3
      exact ⟨h0, h1, h2, h3⟩

/-- C1: for every image with channels in {1,2,3,4} and every in-range
surface coordinate (sx, sy), the composite written by `qimg_draw_image`
places at byte offset (sy*fb_res.x+sx)*4 the 4-byte slot in order
B,G,R,A: if the translated coordinate lies in [0, imageRes.x) x
[0, imageRes.y) the color comes from the image pixel (channels < 3:
r = g = b = first byte, alpha = second byte if channels >= 2 else 0xff;
channels >= 3: r, g, b = first three bytes, alpha = fourth byte if
channels >= 4 else 0xff); otherwise a solid background color is written,
and with the background disabled the destination bytes are left
untouched. -/
theorem qimg_c1_composite_pixel (im : qimg_image) (fb_res : qimg_point)
    (pos : qimg_position) (bg : qimg_bg) (buf0 : ℕ → ℕ) (sx sy : ℕ)
    (t : qimg_point) (o pb : ℕ)
    (h : (im.c = 1 ∨ im.c = 2 ∨ im.c = 3 ∨ im.c = 4) ∧
         sx < fb_res.x.toNat ∧ sy < fb_res.y.toNat ∧
         qimg_translate_coords pos im.res fb_res (sx:ℤ) (sy:ℤ) = t ∧
         o = offsOf fb_res sx sy ∧
         pb = ((t.y * im.res.x + t.x) * im.c).toNat) :
    ((0 ≤ t.x ∧ t.x < im.res.x ∧ 0 ≤ t.y ∧ t.y < im.res.y) →
      (im.c < 3 →
        qimg_draw_image_buf im fb_res pos bg buf0 o = im.pixels pb ∧
        qimg_draw_image_buf im fb_res pos bg buf0 (o + 1) = im.pixels pb ∧
        qimg_draw_image_buf im fb_res pos bg buf0 (o + 2) = im.pixels pb ∧
        qimg_draw_image_buf im fb_res pos bg buf0 (o + 3)
          = (if 2 ≤ im.c then im.pixels (pb + 1) else 255)) ∧
      (3 ≤ im.c →
        qimg_draw_image_buf im fb_res pos bg buf0 o = im.pixels (pb + 2) ∧
        qimg_draw_image_buf im fb_res pos bg buf0 (o + 1) = im.pixels (pb + 1) ∧
        qimg_draw_image_buf im fb_res pos bg buf0 (o + 2) = im.pixels pb ∧
        qimg_draw_image_buf im fb_res pos bg buf0 (o + 3)
          = (if 4 ≤ im.c then im.pixels (pb + 3) else 255))) ∧
    (¬(0 ≤ t.x ∧ t.x < im.res.x ∧ 0 ≤ t.y ∧ t.y < im.res.y) →
      (bg ≠ BG_DISABLED →
        qimg_draw_image_buf im fb_res pos bg buf0 o = (qimg_get_bg_color bg).b ∧
        qimg_draw_image_buf im fb_res pos bg buf0 (o + 1) = (qimg_get_bg_color bg).g ∧
        qimg_draw_image_buf im fb_res pos bg buf0 (o + 2) = (qimg_get_bg_color bg).r ∧
        qimg_draw_image_buf im fb_res pos bg buf0 (o + 3) = (qimg_get_bg_color bg).a) ∧
      (bg = BG_DISABLED →
        qimg_draw_image_buf im fb_res pos bg buf0 o = buf0 o ∧
        qimg_draw_image_buf im fb_res pos bg buf0 (o + 1) = buf0 (o + 1) ∧
        qimg_draw_image_buf im fb_res pos bg buf0 (o + 2) = buf0 (o + 2) ∧
        qimg_draw_image_buf im fb_res pos bg buf0 (o + 3) = buf0 (o + 3))) := by
  obtain ⟨hc, hsx, hsy, ht, ho, hpb⟩ := h
  subst ho
  subst hpb
  have hcore := draw_buf_slots im fb_res pos bg buf0 sx sy t hsx hsy ht
  refine ⟨fun hin => ?_, fun hout => hcore.2 hout⟩
  obtain ⟨e0, e1, e2, e3⟩ := hcore.1 hin
  constructor
  · intro hlt
    refine ⟨?_, ?_, ?_, ?_⟩
    · rw [e0]; unfold qimg_get_pixel; rw [if_pos hlt]
    · rw [e1]; unfold qimg_get_pixel; rw [if_pos hlt]
    · rw [e2]; unfold qimg_get_pixel; rw [if_pos hlt]
    · rw [e3]; unfold qimg_get_pixel; rw [if_pos hlt]
  · intro hge
    have hnlt : ¬(im.c < 3) := by omega
    refine ⟨?_, ?_, ?_, ?_⟩
    · rw [e0]; unfold qimg_get_pixel; rw [if_neg hnlt]
    · rw [e1]; unfold qimg_get_pixel; rw [if_neg hnlt]
    · rw [e2]; unfold qimg_get_pixel; rw [if_neg hnlt]
    · rw [e3]; unfold qimg_get_pixel; rw [if_neg hnlt]

/-- Witness for C1 at the in-bounds coordinate (1, 0) of a 2x1 surface
over a 3-channel image: slot bytes are B, G, R of pixel 1 and opaque
alpha. -/
theorem qimg_c1_witness :
    qimg_draw_image_buf im1w ⟨2, 1⟩ POS_TOP_LEFT BG_RED (fun _ => 7) 4
      = im1w.pixels 5 ∧
    qimg_draw_image_buf im1w ⟨2, 1⟩ POS_TOP_LEFT BG_RED (fun _ => 7) 5
      = im1w.pixels 4 ∧
    qimg_draw_image_buf im1w ⟨2, 1⟩ POS_TOP_LEFT BG_RED (fun _ => 7) 6
      = im1w.pixels 3 ∧
    qimg_draw_image_buf im1w ⟨2, 1⟩ POS_TOP_LEFT BG_RED (fun _ => 7) 7 = 255 := by
  have H := qimg_c1_composite_pixel im1w ⟨2, 1⟩ POS_TOP_LEFT BG_RED (fun _ => 7)
    1 0 ⟨1, 0⟩ 4 3 (by decide)
  have H2 := (H.1 (by decide)).2 (by decide)
  exact ⟨H2.1, H2.2.1, H2.2.2.1, H2.2.2.2⟩

/-- C4: for every image, placement and surface, a pixel slot whose
translated coordinate falls outside the image footprint is left
bit-identical to the pre-composite buffer under BG_DISABLED, and is set
to the byte run 0, 0, 255, 255 (stored BGRA of solid red) under
BG_RED. -/
theorem qimg_c4_background (im : qimg_image) (fb_res : qimg_point)
    (pos : qimg_position) (buf0 : ℕ → ℕ) (sx sy : ℕ) (t : qimg_point) (o : ℕ)
    (h : sx < fb_res.x.toNat ∧ sy < fb_res.y.toNat ∧
         qimg_translate_coords pos im.res fb_res (sx:ℤ) (sy:ℤ) = t ∧
         o = offsOf fb_res sx sy ∧
         (t.x < 0 ∨ im.res.x ≤ t.x ∨ t.y < 0 ∨ im.res.y ≤ t.y)) :
    (qimg_draw_image_buf im fb_res pos BG_DISABLED buf0 o = buf0 o ∧
     qimg_draw_image_buf im fb_res pos BG_DISABLED buf0 (o + 1) = buf0 (o + 1) ∧
     qimg_draw_image_buf im fb_res pos BG_DISABLED buf0 (o + 2) = buf0 (o + 2) ∧
     qimg_draw_image_buf im fb_res pos BG_DISABLED buf0 (o + 3) = buf0 (o + 3)) ∧
    (qimg_draw_image_buf im fb_res pos BG_RED buf0 o = 0 ∧
     qimg_draw_image_buf im fb_res pos BG_RED buf0 (o + 1) = 0 ∧
     qimg_draw_image_buf im fb_res pos BG_RED buf0 (o + 2) = 255 ∧
     qimg_draw_image_buf im fb_res pos BG_RED buf0 (o + 3) = 255) := by
  obtain ⟨hsx, hsy, ht, ho, hoob⟩ := h
  subst ho
  have hout : ¬(0 ≤ t.x ∧ t.x < im.res.x ∧ 0 ≤ t.y ∧ t.y < im.res.y) := by omega
  constructor
  · exact ((draw_buf_slots im fb_res pos BG_DISABLED buf0 sx sy t hsx hsy ht).2
      hout).2 rfl
  · have hred := ((draw_buf_slots im fb_res pos BG_RED buf0 sx sy t hsx hsy ht).2
      hout).1 (by decide)
    exact ⟨hred.1, hred.2.1, hred.2.2.1, hred.2.2.2⟩

/-- Witness for C4 at surface coordinate (1, 0), outside the 1x1 image. -/
theorem qimg_c4_witness :
    (1 < ((⟨2, 1⟩ : qimg_point)).x.toNat ∧
     qimg_translate_coords POS_TOP_LEFT ⟨1, 1⟩ ⟨2, 1⟩ 1 0 = ⟨1, 0⟩) ∧
    ((qimg_draw_image_buf im4w ⟨2, 1⟩ POS_TOP_LEFT BG_DISABLED buf4w 4 = buf4w 4 ∧
      qimg_draw_image_buf im4w ⟨2, 1⟩ POS_TOP_LEFT BG_DISABLED buf4w 5 = buf4w 5 ∧
      qimg_draw_image_buf im4w ⟨2, 1⟩ POS_TOP_LEFT BG_DISABLED buf4w 6 = buf4w 6 ∧
      qimg_draw_image_buf im4w ⟨2, 1⟩ POS_TOP_LEFT BG_DISABLED buf4w 7 = buf4w 7) ∧
     (qimg_draw_image_buf im4w ⟨2, 1⟩ POS_TOP_LEFT BG_RED buf4w 4 = 0 ∧
      qimg_draw_image_buf im4w ⟨2, 1⟩ POS_TOP_LEFT BG_RED buf4w 5 = 0 ∧
      qimg_draw_image_buf im4w ⟨2, 1⟩ POS_TOP_LEFT BG_RED buf4w 6 = 255 ∧
      qimg_draw_image_buf im4w ⟨2, 1⟩ POS_TOP_LEFT BG_RED buf4w 7 = 255)) :=
  ⟨by decide,
   qimg_c4_background im4w ⟨2, 1⟩ POS_TOP_LEFT buf4w 1 0 ⟨1, 0⟩ 4 (by decide)⟩

/-- C5, counterexample to the claim as stated: compositing a same-size
image at TopLeft with background Transparent is NOT pixel-identical to
a direct byte copy of the source buffer, because the surface stores
B,G,R,A while the decoded image stores R,G,B,A: byte 0 of the composite
is the source blue byte (30), not the source byte 0 (10). -/
theorem qimg_c5_cex :
    qimg_draw_image_buf im5cex ⟨1, 1⟩ POS_TOP_LEFT BG_DISABLED (fun _ => 0) 0
      ≠ im5cex.pixels 0 := by
  decide

/-- C5 (amended): for a 4-channel image whose resolution equals the
surface resolution, compositing at TopLeft with background Transparent
yields, at every 4-byte slot, the source pixel bytes with bytes 0 and 2
exchanged (B,G,R,A instead of R,G,B,A); bytes 1 and 3 are copied
through. -/
theorem qimg_c5_topleft_swap (im : qimg_image) (fb_res : qimg_point)
    (buf0 : ℕ → ℕ) (sx sy : ℕ) (o : ℕ)
    (h : im.res = fb_res ∧ im.c = 4 ∧ sx < fb_res.x.toNat ∧ sy < fb_res.y.toNat ∧
         o = offsOf fb_res sx sy) :
    qimg_draw_image_buf im fb_res POS_TOP_LEFT BG_DISABLED buf0 o
      = im.pixels (o + 2) ∧
    qimg_draw_image_buf im fb_res POS_TOP_LEFT BG_DISABLED buf0 (o + 1)
      = im.pixels (o + 1) ∧
    qimg_draw_image_buf im fb_res POS_TOP_LEFT BG_DISABLED buf0 (o + 2)
      = im.pixels o ∧
    qimg_draw_image_buf im fb_res POS_TOP_LEFT BG_DISABLED buf0 (o + 3)
      = im.pixels (o + 3) := by
  obtain ⟨hres, hc4, hsx, hsy, ho⟩ := h
  subst ho
  have ht : qimg_translate_coords POS_TOP_LEFT im.res fb_res (sx:ℤ) (sy:ℤ)
      = ⟨(sx:ℤ), (sy:ℤ)⟩ := rfl
  have hin : (0:ℤ) ≤ (sx:ℤ) ∧ (sx:ℤ) < im.res.x ∧
      (0:ℤ) ≤ (sy:ℤ) ∧ (sy:ℤ) < im.res.y := by
    rw [hres]
    refine ⟨by positivity, by omega, by positivity, by omega⟩
  obtain ⟨e0, e1, e2, e3⟩ :=
    (draw_buf_slots im fb_res POS_TOP_LEFT BG_DISABLED buf0 sx sy
      ⟨(sx:ℤ), (sy:ℤ)⟩ hsx hsy ht).1 hin
  rw [show ((⟨(sx:ℤ), (sy:ℤ)⟩ : qimg_point)).x = (sx:ℤ) from rfl,
    show ((⟨(sx:ℤ), (sy:ℤ)⟩ : qimg_point)).y = (sy:ℤ) from rfl] at e0 e1 e2 e3
  have hnlt : ¬(im.c < 3) := by omega
  have h4le : 4 ≤ im.c := by omega
  have hidx : (((sy:ℤ) * im.res.x + (sx:ℤ)) * (im.c:ℤ)).toNat
      = (sy * fb_res.x.toNat + sx) * 4 := by
    obtain ⟨X, hXeq⟩ : ∃ X : ℕ, fb_res.x = (X:ℤ) := ⟨fb_res.x.toNat, by omega⟩
    rw [hres, hc4, hXeq, Int.toNat_natCast]
    have hcast : ((sy:ℤ) * ((X:ℕ):ℤ) + (sx:ℤ)) * ((4:ℕ):ℤ)
        = (((sy * X + sx) * 4 : ℕ) : ℤ) := by push_cast; ring
    rw [hcast, Int.toNat_natCast]
  refine ⟨?_, ?_, ?_, ?_⟩
  · rw [e0]; unfold qimg_get_pixel; rw [if_neg hnlt, hidx]; rfl
  · rw [e1]; unfold qimg_get_pixel; rw [if_neg hnlt, hidx]; rfl
  · rw [e2]; unfold qimg_get_pixel; rw [if_neg hnlt, hidx]; rfl
  · rw [e3]; unfold qimg_get_pixel; rw [if_neg hnlt, if_pos h4le, hidx]; rfl

/-- Witness for C5 at surface coordinate (1, 1) of a 2x2 RGBA image:
slot 12..15 holds bytes 14, 13, 12, 15 of the source. -/
theorem qimg_c5_witness :
    (im5w.res = ⟨2, 2⟩ ∧ im5w.c = 4 ∧ 1 < ((⟨2, 2⟩ : qimg_point)).x.toNat ∧
     (12:ℕ) = offsOf ⟨2, 2⟩ 1 1) ∧
    (qimg_draw_image_buf im5w ⟨2, 2⟩ POS_TOP_LEFT BG_DISABLED (fun _ => 1) 12
       = im5w.pixels 14 ∧
     qimg_draw_image_buf im5w ⟨2, 2⟩ POS_TOP_LEFT BG_DISABLED (fun _ => 1) 13
       = im5w.pixels 13 ∧
     qimg_draw_image_buf im5w ⟨2, 2⟩ POS_TOP_LEFT BG_DISABLED (fun _ => 1) 14
       = im5w.pixels 12 ∧
     qimg_draw_image_buf im5w ⟨2, 2⟩ POS_TOP_LEFT BG_DISABLED (fun _ => 1) 15
       = im5w.pixels 15) :=
  ⟨by decide,
   qimg_c5_topleft_swap im5w ⟨2, 2⟩ (fun _ => 1) 1 1 12 (by decide)⟩

/-- C6: a dynamic collection initialized with exactly 3 inputs serves,
over 7 successive `qimg_get_next` calls, the images loaded from source
indices 0, 1, 2, 0, 1, 2, 0 in that order. -/
theorem qimg_c6_stream_order :
    (qimg_get_next_trace 7 (qimg_init_dyn_collection 3)).2
      = [some 0, some 1, some 2, some 0, some 1, some 2, some 0] := by decide

/-- C7: the claimed stream invariants fail.  With 6 inputs, after 6
`qimg_get_next` calls the state has `n_consumed = 6 > col.size = 1`
(the wrap branch set `n_consumed` to the collection total rather than
the window length, so the refill guard `n_consumed == col.size` can no
longer fire), after a 7th call the window cursor `col.idx = 2` exceeds
the window length `col.size = 1`, and that 7th call hands out a slot
holding no live image (in C, a pointer into memory freed by
`qimg_free_collection`). -/
theorem qimg_c7_invariant_violation :
    ¬((qimg_get_next_trace 6 (qimg_init_dyn_collection 6)).1.n_consumed
        ≤ (qimg_get_next_trace 6 (qimg_init_dyn_collection 6)).1.col.size) ∧
    (qimg_get_next_trace 7 (qimg_init_dyn_collection 6)).1.col.size
        < (qimg_get_next_trace 7 (qimg_init_dyn_collection 6)).1.col.idx ∧
    (qimg_get_next_trace 7 (qimg_init_dyn_collection 6)).2.getLast? = some none := by
  decide

theorem qimg_get_next_size (d : qimg_dyn_collection) :
    (qimg_get_next d).1.size = d.size := by
  simp only [qimg_get_next]
  split_ifs <;> rfl

theorem qimg_draw_images_body_size (R : qimg_image → qimg_point → ℕ → ℕ)
    (decode : ℤ → qimg_image) (sc : qimg_scale) (fb_res : qimg_point)
    (dcol : qimg_dyn_collection) :
    (qimg_draw_images_body R decode sc fb_res dcol).1.size = dcol.size := by
  unfold qimg_draw_images_body
  rcases h : (qimg_get_next dcol).2 with _ | k
  · simp only [h]
    exact qimg_get_next_size dcol
  · simp only [h]
    split_ifs <;> exact qimg_get_next_size dcol

theorem qimg_draw_images_len_all (R : qimg_image → qimg_point → ℕ → ℕ)
    (decode : ℤ → qimg_image) (sc : qimg_scale) (fb_res : qimg_point)
    (runFlag : ℕ → Bool) (size : ℤ) (h2 : 2 ≤ size) :
    ∀ (n k : ℕ) (i : ℤ) (dcol : qimg_dyn_collection), dcol.size = size →
      (∀ j, j < n → runFlag (k + j) = true) →
      (qimg_draw_images R decode sc fb_res true runFlag n i k dcol).length = n := by
  intro n
  induction n with
  | zero => intro k i dcol hd hr; rfl
  | succ m ih =>
      intro k i dcol hd hr
      simp only [qimg_draw_images]
      rw [if_pos (Or.inr ⟨by simp, by omega⟩)]
      have hk : runFlag k = true := by
        have := hr 0 (by omega)
        simpa using this
      rw [hk, if_pos rfl, List.length_cons]
      rw [ih (k + 1) (i + 1) _
        (by rw [qimg_draw_images_body_size]; exact hd)
        (fun j hj => by
          have := hr (j + 1) (by omega)
          rwa [show k + (j + 1) = k + 1 + j by omega] at this)]

theorem qimg_draw_images_len_stop (R : qimg_image → qimg_point → ℕ → ℕ)
    (decode : ℤ → qimg_image) (sc : qimg_scale) (fb_res : qimg_point)
    (lp : Bool) (runFlag : ℕ → Bool) :
    ∀ (n k : ℕ) (i : ℤ) (dcol : qimg_dyn_collection) (j : ℕ),
      runFlag j = false → k ≤ j →
      (qimg_draw_images R decode sc fb_res lp runFlag n i k dcol).length
        ≤ j - k + 1 := by
  intro n
  induction n with
  | zero => intro k i dcol j hj hkj; simp [qimg_draw_images]
  | succ m ih =>
      intro k i dcol j hj hkj
      simp only [qimg_draw_images]
      split_ifs with hg hrk
      · have hne : k ≠ j := by
          intro he
          rw [he, hj] at hrk
          exact absurd hrk (by simp)
        simp only [List.length_cons]
        have := ih (k + 1) (i + 1)
          (qimg_draw_images_body R decode sc fb_res dcol).1 j hj (by omega)
        omega
      · simp only [List.length_cons, List.length_nil]
        omega
      · simp

/-- Counterexample to C8: a single 1x10000 image on a 100x100 viewport
under Fit gets degenerate target dimensions (x = 0), so
`qimg_resize_image` fails — yet the playback loop still performs the
draw: the run produces exactly one draw event, for that image, at its
original resolution, with the resize result recorded as `false`. -/
theorem qimg_c8_cex :
    qimg_draw_images (fun _ _ _ => 0) (fun _ => ⟨⟨1, 10000⟩, 3, fun _ => 0⟩)
        SCALE_FIT ⟨100, 100⟩ false (fun _ => true) 2 0 0
        (qimg_init_dyn_collection 1)
      = [⟨some 0, some ⟨1, 10000⟩, some false⟩] := by decide

/-- C8 (amended): `qimg_draw_images` ignores the boolean returned by
`qimg_resize_image`.  Whenever an iteration fetches an image and the
resampler fails on its scaled target dimensions, the loop draws the
image anyway, at its original (un-resized) resolution. -/
theorem qimg_c8_resize_ignored (R : qimg_image → qimg_point → ℕ → ℕ)
    (decode : ℤ → qimg_image) (sc : qimg_scale) (fb_res : qimg_point)
    (dcol : qimg_dyn_collection) (k : ℤ)
    (h1 : (qimg_get_next dcol).2 = some k)
    (h2 : sc ≠ SCALE_DISABLED)
    (h3 : stbir_resize_uint8
        (qimg_get_scaled_dims (decode k).res fb_res sc) = false) :
    (qimg_draw_images_body R decode sc fb_res dcol).2
      = ⟨some k, some (decode k).res, some false⟩ := by
  simp only [qimg_draw_images_body, h1]
  rw [if_pos h2]
  simp only [qimg_resize_image, h3]
  simp

/-- Witness for C8: stream of one 10x1 image on a 1x100 viewport under
Fit (target y = 0, resampler fails); the body still emits the draw
event at resolution 10x1 with resize result `false`. -/
theorem qimg_c8_witness :
    (qimg_draw_images_body (fun _ _ _ => 0) (fun _ => ⟨⟨10, 1⟩, 3, fun _ => 0⟩)
        SCALE_FIT ⟨1, 100⟩ (qimg_init_dyn_collection 1)).2
      = ⟨some 0, some ⟨10, 1⟩, some false⟩ :=
  qimg_c8_resize_ignored _ _ _ _ _ 0 (by decide) (by decide) (by decide)

/-- Counterexample to C9: with a single image and looping enabled the
loop guard `i < dcol->size || (loop && dcol->size > 1)` fails after one
iteration (1 > 1 is false), so playback performs exactly one
presentation and exits instead of iterating indefinitely. -/
theorem qimg_c9_cex :
    (qimg_draw_images (fun _ _ _ => 0) (fun _ => ⟨⟨1, 1⟩, 1, fun _ => 0⟩)
        SCALE_DISABLED ⟨4, 4⟩ true (fun _ => true) 3 0 0
        (qimg_init_dyn_collection 1)).length = 1 := by decide

/-- C9 (amended): for sequences of at least two images with looping
enabled, the playback loop is unbounded — while the cancellation flag
keeps being observed set, an unrolling to `n` iterations starts exactly
`n` presentations, for every `n` — and as soon as the flag is observed
cleared at some check `j`, the loop stops without starting another
presentation (at most `j + 1` presentations ever occur). -/
theorem qimg_c9_loop_presentations (R : qimg_image → qimg_point → ℕ → ℕ)
    (decode : ℤ → qimg_image) (sc : qimg_scale) (fb_res : qimg_point)
    (runFlag : ℕ → Bool) (size : ℤ) (n : ℕ) (h2 : 2 ≤ size) :
    ((∀ j, j < n → runFlag j = true) →
      (qimg_draw_images R decode sc fb_res true runFlag n 0 0
          (qimg_init_dyn_collection size)).length = n) ∧
    (∀ j, runFlag j = false →
      (qimg_draw_images R decode sc fb_res true runFlag n 0 0
          (qimg_init_dyn_collection size)).length ≤ j + 1) := by
  constructor
  · intro hr
    exact qimg_draw_images_len_all R decode sc fb_res runFlag size h2 n 0 0
      (qimg_init_dyn_collection size) rfl (fun j hj => by simpa using hr j hj)
  · intro j hj
    have := qimg_draw_images_len_stop R decode sc fb_res true runFlag n 0 0
      (qimg_init_dyn_collection size) j hj (Nat.zero_le j)
    omega

/-- Witness for C9: two images, looping, cancellation first observed
cleared at the fourth check (`runFlag t = decide (t < 3)`): an
unrolling to 3 iterations starts exactly 3 presentations, and an
unrolling to 10 iterations is cut off after at most 4. -/
theorem qimg_c9_witness :
    (qimg_draw_images (fun _ _ _ => 0) (fun _ => ⟨⟨1, 1⟩, 1, fun _ => 0⟩)
        SCALE_DISABLED ⟨4, 4⟩ true (fun t => decide (t < 3)) 3 0 0
        (qimg_init_dyn_collection 2)).length = 3 ∧
    (qimg_draw_images (fun _ _ _ => 0) (fun _ => ⟨⟨1, 1⟩, 1, fun _ => 0⟩)
        SCALE_DISABLED ⟨4, 4⟩ true (fun t => decide (t < 3)) 10 0 0
        (qimg_init_dyn_collection 2)).length ≤ 4 :=
  ⟨(qimg_c9_loop_presentations _ _ _ _ _ 2 3 (by decide)).1 (by decide),
   (qimg_c9_loop_presentations _ _ _ _ _ 2 10 (by decide)).2 3 (by decide)⟩

theorem i2f64R_den_pos (n : ℤ) : 0 < (i2f64R n).2 := rndF_den_pos 53 n 1

theorem f64divR_den_pos (a b : ℤ × ℕ) : 0 < (f64divR a b).2 :=
  rndF_den_pos 53 _ _

theorem i2f64R_val (n : ℤ) : fval (i2f64R n) = roundFP 53 (n:ℚ) := by
  unfold i2f64R
  rw [rndF_val 53 n 1 one_pos]
  norm_num

theorem f64divR_val (a b : ℤ × ℕ) (ha : 0 < a.2) (hb : 0 < b.2) (hb1 : b.1 ≠ 0) :
    fval (f64divR a b) = roundFP 53 (fval a / fval b) := by
  unfold f64divR
  rw [rndF_val _ _ _ (Nat.mul_pos ha (Int.natAbs_pos.mpr hb1))]
  congr 1
  unfold fval
  have ha2 : ((a.2:ℕ):ℚ) ≠ 0 := by positivity
  have hb2 : ((b.2:ℕ):ℚ) ≠ 0 := by positivity
  have hb1' : ((b.1:ℤ):ℚ) ≠ 0 := by exact_mod_cast hb1
  rcases lt_or_gt_of_ne hb1 with h | h
  · rw [Int.sign_eq_neg_one_iff_neg.mpr h]
    push_cast [Int.cast_natAbs]
    rw [abs_of_neg (show ((b.1:ℤ):ℚ) < 0 by exact_mod_cast h)]
    field_simp
  · rw [Int.sign_eq_one_iff_pos.mpr h]
    push_cast [Int.cast_natAbs]
    rw [abs_of_pos (show (0:ℚ) < ((b.1:ℤ):ℚ) by exact_mod_cast h)]
    field_simp

/-- Counterexample to C10: at 4294968 elapsed seconds (ticks =
4294968000000 with CLOCKS_PER_SEC = 1000000), the `uint32_t`
multiplication by 1000 wraps modulo `2^32` and `qimg_get_millis`
returns 704, which is not a multiple of 1000. -/
theorem qimg_c10_cex :
    qimg_get_millis 1000000 4294968000000 = 704 ∧
    ¬(1000 ∣ qimg_get_millis 1000000 4294968000000) := by decide

/-- C10 (amended): `qimg_get_millis` divides the elapsed ticks by
`CLOCKS_PER_SEC` in double precision and truncates to whole seconds
before multiplying by 1000, so sub-second elapsed time is reported as
0 and exact whole-second durations are reported as the second count
times 1000 (a multiple of 1000) — but only below the `uint32_t` wrap
of the final multiplication (seconds ≤ 4294967); past it the result
need not be a multiple of 1000. -/
theorem qimg_c10_millis (cps t s : ℕ) (hc : 0 < cps) (hcb : cps ≤ 2 ^ 50) :
    (t < cps → qimg_get_millis cps t = 0) ∧
    (1 ≤ s → s ≤ 4294967 → s * cps ≤ 2 ^ 53 →
      qimg_get_millis cps (s * cps) = s * 1000 ∧
      1000 ∣ qimg_get_millis cps (s * cps)) := by
  have hcQ0 : (0:ℚ) < (cps:ℚ) := by exact_mod_cast hc
  have hvc : fval (i2f64R ((cps:ℕ):ℤ)) = ((cps:ℕ):ℚ) := by
    rw [i2f64R_val]
    have hle : ((cps:ℕ):ℤ) ≤ 2 ^ 53 := by
      have : cps ≤ 2 ^ 53 := le_trans hcb (by norm_num)
      exact_mod_cast this
    have h := roundFP_int 53 (by norm_num) ((cps:ℕ):ℤ) (by exact_mod_cast hc) hle
    exact_mod_cast h
  have hb1 : (i2f64R ((cps:ℕ):ℤ)).1 ≠ 0 := by
    intro h0
    have hv := hvc
    unfold fval at hv
    rw [h0] at hv
    simp only [Int.cast_zero, zero_div] at hv
    rw [← hv] at hcQ0
    exact lt_irrefl _ hcQ0
  constructor
  · intro ht
    have ht0 : (0:ℚ) ≤ ((t:ℕ):ℚ) := by positivity
    have hv1e : fval (i2f64R ((t:ℕ):ℤ)) = roundFP 53 ((t:ℕ):ℚ) := by
      rw [i2f64R_val]
      congr 1
    have hv10 : 0 ≤ roundFP 53 ((t:ℕ):ℚ) := roundFP_nonneg _ _ ht0
    have he1 := roundFP_err 53 ((t:ℕ):ℚ) ht0
    set v1 := roundFP 53 ((t:ℕ):ℚ) with hv1def
    have hqv : fval (f64divR (i2f64R ((t:ℕ):ℤ)) (i2f64R ((cps:ℕ):ℤ)))
        = roundFP 53 (v1 / (cps:ℚ)) := by
      rw [f64divR_val _ _ (i2f64R_den_pos _) (i2f64R_den_pos _) hb1, hv1e, hvc]
    have hx0 : 0 ≤ v1 / (cps:ℚ) := div_nonneg hv10 hcQ0.le
    have hq0 : 0 ≤ roundFP 53 (v1 / (cps:ℚ)) := roundFP_nonneg _ _ hx0
    have he2 := roundFP_err 53 (v1 / (cps:ℚ)) hx0
    set q := roundFP 53 (v1 / (cps:ℚ)) with hqdef
    have hA0 : (0:ℚ) < 2 ^ (53:ℕ) := by positivity
    have hA1 : (1:ℚ) ≤ 2 ^ (53:ℕ) := by norm_num
    have hA8 : 8 * (cps:ℚ) ≤ 2 ^ (53:ℕ) := by
      have hcb' : (cps:ℚ) ≤ 2 ^ 50 := by exact_mod_cast hcb
      nlinarith
    have hcQ1 : (1:ℚ) ≤ (cps:ℚ) := by exact_mod_cast hc
    have htc : ((t:ℕ):ℚ) ≤ (cps:ℚ) - 1 := by
      have h' : (t:ℕ) + 1 ≤ cps := ht
      have h'' : ((t:ℕ):ℚ) + 1 ≤ (cps:ℚ) := by exact_mod_cast h'
      linarith
    have hv1u : v1 ≤ ((t:ℕ):ℚ) + ((t:ℕ):ℚ) / 2 ^ (53:ℕ) := by
      have := (abs_le.mp he1).2
      linarith
    have h1' : v1 * 2 ^ (53:ℕ) ≤ ((t:ℕ):ℚ) * 2 ^ (53:ℕ) + ((t:ℕ):ℚ) := by
      have hm := mul_le_mul_of_nonneg_right hv1u hA0.le
      rwa [add_mul, div_mul_cancel₀ _ (ne_of_gt hA0)] at hm
    have htA : ((t:ℕ):ℚ) * 2 ^ (53:ℕ) ≤ ((cps:ℚ) - 1) * 2 ^ (53:ℕ) :=
      mul_le_mul_of_nonneg_right htc hA0.le
    have ht2 : ((t:ℕ):ℚ) / 2 ^ (53:ℕ) ≤ ((t:ℕ):ℚ) := div_le_self ht0 hA1
    have hv1b : v1 ≤ 2 * (cps:ℚ) := by linarith
    have hqu : q ≤ v1 / (cps:ℚ) + (v1 / (cps:ℚ)) / 2 ^ (53:ℕ) := by
      have := (abs_le.mp he2).2
      linarith
    have hq' : q * ((cps:ℚ) * 2 ^ (53:ℕ)) ≤ v1 * 2 ^ (53:ℕ) + v1 := by
      have hm := mul_le_mul_of_nonneg_right hqu
        (by positivity : (0:ℚ) ≤ (cps:ℚ) * 2 ^ (53:ℕ))
      have hrhs : (v1 / (cps:ℚ) + (v1 / (cps:ℚ)) / 2 ^ (53:ℕ))
          * ((cps:ℚ) * 2 ^ (53:ℕ)) = v1 * 2 ^ (53:ℕ) + v1 := by
        field_simp
        ring
      rwa [hrhs] at hm
    have hnum : v1 * 2 ^ (53:ℕ) + v1 < (cps:ℚ) * 2 ^ (53:ℕ) := by linarith
    have hqlt1 : q < 1 := by
      have hpos : (0:ℚ) < (cps:ℚ) * 2 ^ (53:ℕ) := by positivity
      have hfin : q * ((cps:ℚ) * 2 ^ (53:ℕ)) < 1 * ((cps:ℚ) * 2 ^ (53:ℕ)) := by
        rw [one_mul]
        linarith
      exact (mul_lt_mul_right hpos).mp hfin
    have htr : truncZR (f64divR (i2f64R ((t:ℕ):ℤ)) (i2f64R ((cps:ℕ):ℤ))) = 0 := by
      rw [truncZR_val _ (f64divR_den_pos _ _), hqv]
      unfold truncZ
      rw [if_pos hq0]
      exact Int.floor_eq_zero_iff.mpr (Set.mem_Ico.mpr ⟨hq0, hqlt1⟩)
    unfold qimg_get_millis
    rw [htr]
    norm_num
  · intro hs1 hs2 hs3
    have hvt : fval (i2f64R ((s * cps : ℕ):ℤ)) = ((s * cps : ℕ):ℚ) := by
      rw [i2f64R_val]
      have h1 : (1:ℤ) ≤ ((s * cps : ℕ):ℤ) := by
        have : 1 ≤ s * cps := Nat.one_le_iff_ne_zero.mpr (by positivity)
        exact_mod_cast this
      have h2 : ((s * cps : ℕ):ℤ) ≤ 2 ^ 53 := by exact_mod_cast hs3
      have h := roundFP_int 53 (by norm_num) ((s * cps : ℕ):ℤ) h1 h2
      exact_mod_cast h
    have hqv : fval (f64divR (i2f64R ((s * cps : ℕ):ℤ)) (i2f64R ((cps:ℕ):ℤ)))
        = roundFP 53 ((s:ℚ)) := by
      rw [f64divR_val _ _ (i2f64R_den_pos _) (i2f64R_den_pos _) hb1, hvt, hvc]
      congr 1
      push_cast
      field_simp
    have hqs : roundFP 53 ((s:ℚ)) = ((s:ℕ):ℚ) := by
      have h1 : (1:ℤ) ≤ ((s:ℕ):ℤ) := by exact_mod_cast hs1
      have h2 : ((s:ℕ):ℤ) ≤ 2 ^ 53 := by
        have : s ≤ 2 ^ 53 := le_trans hs2 (by norm_num)
        exact_mod_cast this
      have h := roundFP_int 53 (by norm_num) ((s:ℕ):ℤ) h1 h2
      exact_mod_cast h
    have htr : truncZR (f64divR (i2f64R ((s * cps : ℕ):ℤ)) (i2f64R ((cps:ℕ):ℤ)))
        = ((s:ℕ):ℤ) := by
      rw [truncZR_val _ (f64divR_den_pos _ _), hqv, hqs]
      unfold truncZ
      rw [if_pos (by positivity)]
      exact Int.floor_natCast s
    have hval : qimg_get_millis cps (s * cps) = s * 1000 := by
      unfold qimg_get_millis
      rw [htr, Int.toNat_natCast]
      exact Nat.mod_eq_of_lt (by omega)
    exact ⟨hval, by rw [hval]; exact dvd_mul_left 1000 s⟩

/-- Witness for C10: with `CLOCKS_PER_SEC = 1000000`, 999999 elapsed
ticks (just under a second) report 0 ms, and 2 whole seconds report
exactly 2000 ms, a multiple of 1000. -/
theorem qimg_c10_witness :
    qimg_get_millis 1000000 999999 = 0 ∧
    qimg_get_millis 1000000 (2 * 1000000) = 2 * 1000 ∧
    1000 ∣ qimg_get_millis 1000000 (2 * 1000000) :=
  ⟨(qimg_c10_millis 1000000 999999 2 (by decide) (by decide)).1 (by decide),
   ((qimg_c10_millis 1000000 999999 2 (by decide) (by decide)).2 (by decide)
      (by decide) (by decide)).1,
   ((qimg_c10_millis 1000000 999999 2 (by decide) (by decide)).2 (by decide)
      (by decide) (by decide)).2⟩
